import Mathlib

/-!
Verification of the RELIC low-level arithmetic core: the Comba squaring
kernel (`relic_bn_sqr_low.c`), the quadratic/cubic extension-field
multiplication kernels (`relic_pp_mul_low.c`), and the architecture
abstraction (`arch_lzcnt`).  The kernels are embedded shallowly: machine
digits are naturals taken modulo `2 ^ W`, field values and double-width
buffers are integers, and the single-field primitives that the extension
kernels call (which live outside the files under verification) are
modelled from the specification.
-/

/-! ## Prime-field primitives (collaborators of `relic_pp_mul_low.c`) -/

/-- Modelled from the spec: `fp_addn_low`, single-width field addition in
headroom ("space") mode, a plain addition with no reduction step. -/
def fp_addn_low (a b : Int) : Int :=
  a + b

/-- Modelled from the spec: `fp_addm_low`, single-width field addition that
keeps the result always below `p` via one extra conditional subtraction. -/
def fp_addm_low (p a b : Int) : Int :=
  if p ≤ a + b then a + b - p else a + b

/-- Modelled from the spec: `fp_muln_low`, single-width multiplication
producing the exact double-width product. -/
def fp_muln_low (a b : Int) : Int :=
  a * b

/-- Modelled from the spec: `fp_addd_low`, plain double-width addition. -/
def fp_addd_low (a b : Int) : Int :=
  a + b

/-- Modelled from the spec: `fp_subd_low`, plain double-width subtraction. -/
def fp_subd_low (a b : Int) : Int :=
  a - b

/-- Modelled from the spec: `fp_subc_low`, double-width subtraction with
correction: on borrow the shifted modulus `p * 2 ^ N` is added back so the
buffer stays non-negative (`N` is the bit width of the single-width layout). -/
def fp_subc_low (p : Int) (N : Nat) (a b : Int) : Int :=
  if b ≤ a then a - b else a - b + p * 2 ^ N

/-- Modelled from the spec: `fp_addc_low`, double-width addition with
correction by the shifted modulus `p * 2 ^ N`. -/
def fp_addc_low (p : Int) (N : Nat) (a b : Int) : Int :=
  if p * 2 ^ N ≤ a + b then a + b - p * 2 ^ N else a + b

/-- Modelled from the spec: column-wise reduction of a double-width pair
into canonical residues modulo `p` (`fp2_rdcn_low`). -/
def fp2_rdcn_low (p : Int) (c : Int × Int) : Int × Int :=
  (c.1 % p, c.2 % p)

/-- Modelled from the spec: column-wise reduction of a double-width triple
into canonical residues modulo `p` (`fp3_rdcn_low`). -/
def fp3_rdcn_low (p : Int) (c : Int × Int × Int) : Int × Int × Int :=
  (c.1 % p, c.2.1 % p, c.2.2 % p)

/-- Number of iterations of the C loop `for (int i = -1; i > q; i--)`,
which visits every integer `i` with `q < i ≤ -1`. -/
def nresIters (q : Int) : Nat :=
  (-1 - q).toNat

/-- Single-width addition selected by the `FP_SPACE` compile flag:
`fp_addn_low` in space (headroom) mode, `fp_addm_low` otherwise. -/
def fpAdd (p : Int) (space : Bool) (a b : Int) : Int :=
  if space then fp_addn_low a b else fp_addm_low p a b

/-- Double-width addition selected by the `FP_SPACE` compile flag. -/
def fpAddDbl (p : Int) (N : Nat) (space : Bool) (a b : Int) : Int :=
  if space then fp_addd_low a b else fp_addc_low p N a b

/-- Double-width subtraction selected by the `FP_SPACE` compile flag. -/
def fpSubDbl (p : Int) (N : Nat) (space : Bool) (a b : Int) : Int :=
  if space then fp_subd_low a b else fp_subc_low p N a b

/-! ## The degree-2 extension kernels (`relic_pp_mul_low.c`) -/

/-- The Karatsuba step sequence shared by `fp2_muln_low` and
`fp2_mulc_low`, abstracted over the four primitive slots it instantiates:
the single-width addition, the double-width addition, the double-width
subtraction used for the real part (and the non-residue loop), and the
double-width subtraction used for the cross term. -/
def fp2_karatsuba (add addDbl subReal subCross : Int → Int → Int)
    (qnres : Bool) (qnr : Int) (a b : Int × Int) : Int × Int :=
  let t0 := add a.1 a.2
  let t1 := add b.1 b.2
  let c0 := fp_muln_low a.1 b.1
  let c1 := fp_muln_low a.2 b.2
  let t2 := fp_muln_low t0 t1
  let s0 := addDbl c0 c1
  let r0 := subReal c0 c1
  let r1 := if qnres then r0 else (fun x => subReal x c1)^[nresIters qnr] r0
  (r1, subCross t2 s0)

/-- `fp2_muln_low` from `relic_pp_mul_low.c`: the sum terms and the cross
subtraction use the `FP_SPACE`-selected primitives, the real-part
subtraction is always `fp_subc_low`, and the non-residue repeated
subtraction is guarded by `FP_QNRES`. -/
def fp2_muln_low (p : Int) (N : Nat) (space qnres : Bool) (qnr : Int)
    (a b : Int × Int) : Int × Int :=
  let t0 := fpAdd p space a.1 a.2
  let t1 := fpAdd p space b.1 b.2
  let c0 := fp_muln_low a.1 b.1
  let c1 := fp_muln_low a.2 b.2
  let t2 := fp_muln_low t0 t1
  let s0 := fpAddDbl p N space c0 c1
  let r0 := fp_subc_low p N c0 c1
  let r1 := if qnres then r0 else (fun x => fp_subc_low p N x c1)^[nresIters qnr] r0
  (r1, fpSubDbl p N space t2 s0)

/-- `fp2_mulc_low` from `relic_pp_mul_low.c`: the same step sequence with
the plain primitives (`fp_addn_low`, `fp_addd_low`, `fp_subd_low`)
throughout, followed by the normalization `c_0 += 2^N * p / 4` (the
left-shift/add/right-shift sequence on the top digits nets to adding
`p * 2 ^ (N - 2)` to the real part). -/
def fp2_mulc_low (p : Int) (N : Nat) (qnres : Bool) (qnr : Int)
    (a b : Int × Int) : Int × Int :=
  let t0 := fp_addn_low a.1 a.2
  let t1 := fp_addn_low b.1 b.2
  let c0 := fp_muln_low a.1 b.1
  let c1 := fp_muln_low a.2 b.2
  let t2 := fp_muln_low t0 t1
  let s0 := fp_addd_low c0 c1
  let r0 := fp_subd_low c0 c1
  let r1 := if qnres then r0 else (fun x => fp_subd_low x c1)^[nresIters qnr] r0
  (r1 + p * 2 ^ (N - 2), fp_subd_low t2 s0)

/-- Result of a reducing multiplication call, including the resource
bookkeeping of its scoped double-width buffer. -/
structure MulmRun (α : Type) where
  out : α
  fault : Bool
  acquired : Nat
  released : Nat

/-- Modelled from the spec: `fp2_mulm_low` wraps `fp2_muln_low` in the
scoped-buffer TRY/CATCH/FINALLY discipline (`dv2_null`/`dv2_new`/
`dv2_free`, which live outside the file under verification): `allocOk`
tells whether `dv2_new` succeeds and `rdcOk` whether the reduction
signals a fault; `c` is the caller's output buffer, returned unmodified
when a fault propagates, and `dv2_free` runs in FINALLY on every path. -/
def fp2_mulm_low (allocOk rdcOk : Bool) (p : Int) (N : Nat)
    (space qnres : Bool) (qnr : Int) (c a b : Int × Int) :
    MulmRun (Int × Int) :=
  if allocOk then
    let t := fp2_muln_low p N space qnres qnr a b
    if rdcOk then
      { out := fp2_rdcn_low p t, fault := false, acquired := 1, released := 1 }
    else
      { out := c, fault := true, acquired := 1, released := 1 }
  else
    { out := c, fault := true, acquired := 0, released := 0 }

/-! ## The degree-3 extension kernels (`relic_pp_mul_low.c`) -/

/-- `fp3_muln_low` from `relic_pp_mul_low.c`.  Only the two single-width
additions per cross term depend on `FP_SPACE`; the double-width additions
are `fp_addd_low`, the corrections `fp_subc_low`/`fp_addc_low`, and the
cubic non-residue loops are unguarded. -/
def fp3_muln_low (p : Int) (N : Nat) (space : Bool) (cnr : Int)
    (a b : Int × Int × Int) : Int × Int × Int :=
  let t0 := fp_muln_low a.1 b.1
  let t1 := fp_muln_low a.2.1 b.2.1
  let t2 := fp_muln_low a.2.2 b.2.2
  let t3 := fpAdd p space a.2.1 a.2.2
  let t4 := fpAdd p space b.2.1 b.2.2
  let t5 := fp_muln_low t3 t4
  let t6 := fp_addd_low t1 t2
  let t4a := fp_subc_low p N t5 t6
  let c0 := (fun x => fp_subc_low p N x t4a)^[nresIters cnr]
    (fp_subc_low p N t0 t4a)
  let t4b := fpAdd p space a.1 a.2.1
  let t5b := fpAdd p space b.1 b.2.1
  let t6b := fp_muln_low t4b t5b
  let t4c := fp_addd_low t0 t1
  let t4d := fp_subc_low p N t6b t4c
  let c1 := (fun x => fp_subc_low p N x t2)^[nresIters cnr]
    (fp_subc_low p N t4d t2)
  let t5c := fpAdd p space a.1 a.2.2
  let t6c := fpAdd p space b.1 b.2.2
  let t4e := fp_muln_low t5c t6c
  let t6d := fp_addd_low t0 t2
  let t5d := fp_subc_low p N t4e t6d
  let c2 := fp_addc_low p N t5d t1
  (c0, c1, c2)

/-- Modelled from the spec: `fp3_mulm_low`, the same scoped-buffer
TRY/CATCH/FINALLY discipline as `fp2_mulm_low` around `fp3_muln_low`. -/
def fp3_mulm_low (allocOk rdcOk : Bool) (p : Int) (N : Nat)
    (space : Bool) (cnr : Int) (c a b : Int × Int × Int) :
    MulmRun (Int × Int × Int) :=
  if allocOk then
    let t := fp3_muln_low p N space cnr a b
    if rdcOk then
      { out := fp3_rdcn_low p t, fault := false, acquired := 1, released := 1 }
    else
      { out := c, fault := true, acquired := 1, released := 1 }
  else
    { out := c, fault := true, acquired := 0, released := 0 }

/-- The schoolbook 4-multiplication product in the quadratic extension:
`(a0*b0 + qnr*a1*b1, a0*b1 + a1*b0)`. -/
def fp2_schoolbook (qnr : Int) (a b : Int × Int) : Int × Int :=
  (a.1 * b.1 + qnr * (a.2 * b.2), a.1 * b.2 + a.2 * b.1)

/-- The schoolbook 9-multiplication product in the cubic extension with
`v ^ 3 = cnr`: coefficients of `1`, `v`, `v ^ 2`. -/
def fp3_schoolbook (cnr : Int) (a b : Int × Int × Int) : Int × Int × Int :=
  (a.1 * b.1 + cnr * (a.2.1 * b.2.2 + a.2.2 * b.2.1),
   a.1 * b.2.1 + a.2.1 * b.1 + cnr * (a.2.2 * b.2.2),
   a.1 * b.2.2 + a.2.2 * b.1 + a.2.1 * b.2.1)

/-- The `fp2_mulc_low` kernel as claim C8 words it: the same Karatsuba
steps with every addition and subtraction performed by the non-headroom
(result always below `p`) primitives `fp_addm_low`, `fp_addc_low`,
`fp_subc_low`, then the shifted-modulus normalization. -/
def fp2_mulc_claimed (p : Int) (N : Nat) (qnres : Bool) (qnr : Int)
    (a b : Int × Int) : Int × Int :=
  let k := fp2_karatsuba (fp_addm_low p) (fp_addc_low p N)
    (fp_subc_low p N) (fp_subc_low p N) qnres qnr a b
  (k.1 + p * 2 ^ (N - 2), k.2)

/-! ## Congruence facts for the modelled primitives -/

theorem fp_addm_low_modEq (p a b : Int) : fp_addm_low p a b ≡ a + b [ZMOD p] := by
  unfold fp_addm_low
  split
  · show (a + b - p) % p = (a + b) % p
    have h : a + b - p = a + b + p * -1 := by ring
    rw [h]
    exact Int.add_mul_emod_self_left ..
  · rfl

theorem fp_subc_low_modEq (p : Int) (N : Nat) (a b : Int) :
    fp_subc_low p N a b ≡ a - b [ZMOD p] := by
  unfold fp_subc_low
  split
  · rfl
  · show (a - b + p * 2 ^ N) % p = (a - b) % p
    exact Int.add_mul_emod_self_left ..

theorem fp_addc_low_modEq (p : Int) (N : Nat) (a b : Int) :
    fp_addc_low p N a b ≡ a + b [ZMOD p] := by
  unfold fp_addc_low
  split
  · show (a + b - p * 2 ^ N) % p = (a + b) % p
    have h : a + b - p * 2 ^ N = a + b + p * -(2 ^ N) := by ring
    rw [h]
    exact Int.add_mul_emod_self_left ..
  · rfl

theorem fpAdd_modEq (p : Int) (s : Bool) (a b : Int) :
    fpAdd p s a b ≡ a + b [ZMOD p] := by
  cases s
  · exact fp_addm_low_modEq p a b
  · rfl

theorem fpAddDbl_modEq (p : Int) (N : Nat) (s : Bool) (a b : Int) :
    fpAddDbl p N s a b ≡ a + b [ZMOD p] := by
  cases s
  · exact fp_addc_low_modEq p N a b
  · rfl

theorem fpSubDbl_modEq (p : Int) (N : Nat) (s : Bool) (a b : Int) :
    fpSubDbl p N s a b ≡ a - b [ZMOD p] := by
  cases s
  · exact fp_subc_low_modEq p N a b
  · rfl

theorem iter_subc_modEq (p : Int) (N : Nat) (d : Int) :
    ∀ (k : Nat) (x : Int),
      (fun y => fp_subc_low p N y d)^[k] x ≡ x - (k : Int) * d [ZMOD p]
  | 0, x => by simp [Int.ModEq]
  | k + 1, x => by
    rw [Function.iterate_succ_apply]
    have h1 := iter_subc_modEq p N d k (fp_subc_low p N x d)
    have h2 := (fp_subc_low_modEq p N x d).sub (Int.ModEq.refl ((k : Int) * d))
    push_cast
    have h3 : x - ((k : Int) + 1) * d = x - d - (k : Int) * d := by ring
    rw [h3]
    exact h1.trans h2

theorem iter_subd (d : Int) :
    ∀ (k : Nat) (x : Int),
      (fun y => fp_subd_low y d)^[k] x = x - (k : Int) * d
  | 0, x => by simp
  | k + 1, x => by
    rw [Function.iterate_succ_apply, iter_subd d k]
    unfold fp_subd_low
    push_cast
    ring

theorem fp2_muln_low_fst (p : Int) (N : Nat) (space qnres : Bool) (qnr : Int)
    (a b : Int × Int) :
    (fp2_muln_low p N space qnres qnr a b).1 =
      (if qnres then fp_subc_low p N (a.1 * b.1) (a.2 * b.2)
       else (fun x => fp_subc_low p N x (a.2 * b.2))^[nresIters qnr]
         (fp_subc_low p N (a.1 * b.1) (a.2 * b.2))) := rfl

theorem fp2_muln_low_snd (p : Int) (N : Nat) (space qnres : Bool) (qnr : Int)
    (a b : Int × Int) :
    (fp2_muln_low p N space qnres qnr a b).2 =
      fpSubDbl p N space
        (fp_muln_low (fpAdd p space a.1 a.2) (fpAdd p space b.1 b.2))
        (fpAddDbl p N space (a.1 * b.1) (a.2 * b.2)) := rfl

theorem nresIters_cast (q : Int) (hq : q ≤ -1) :
    ((nresIters q : Nat) : Int) = -q - 1 := by
  unfold nresIters
  rw [Int.toNat_of_nonneg (by omega)]
  ring

theorem fp2_muln_low_fst_false (p : Int) (N : Nat) (space : Bool) (qnr : Int)
    (a b : Int × Int) :
    (fp2_muln_low p N space false qnr a b).1 =
      (fun x => fp_subc_low p N x (a.2 * b.2))^[nresIters qnr]
        (fp_subc_low p N (a.1 * b.1) (a.2 * b.2)) := rfl

theorem fp2_muln_low_fst_true (p : Int) (N : Nat) (space : Bool) (qnr : Int)
    (a b : Int × Int) :
    (fp2_muln_low p N space true qnr a b).1 =
      fp_subc_low p N (a.1 * b.1) (a.2 * b.2) := rfl

theorem fp2_muln_low_snd_eq (p : Int) (N : Nat) (space qnres : Bool) (qnr : Int)
    (a b : Int × Int) :
    (fp2_muln_low p N space qnres qnr a b).2 =
      fpSubDbl p N space (fpAdd p space a.1 a.2 * fpAdd p space b.1 b.2)
        (fpAddDbl p N space (a.1 * b.1) (a.2 * b.2)) := rfl

theorem fp2_mulc_low_fst_false (p : Int) (N : Nat) (qnr : Int) (a b : Int × Int) :
    (fp2_mulc_low p N false qnr a b).1 =
      (fun x => fp_subd_low x (a.2 * b.2))^[nresIters qnr]
        (fp_subd_low (a.1 * b.1) (a.2 * b.2)) + p * 2 ^ (N - 2) := rfl

theorem fp2_mulc_low_fst_true (p : Int) (N : Nat) (qnr : Int) (a b : Int × Int) :
    (fp2_mulc_low p N true qnr a b).1 =
      fp_subd_low (a.1 * b.1) (a.2 * b.2) + p * 2 ^ (N - 2) := rfl

theorem fp2_mulc_low_snd_eq (p : Int) (N : Nat) (qnres : Bool) (qnr : Int)
    (a b : Int × Int) :
    (fp2_mulc_low p N qnres qnr a b).2 =
      fp_subd_low ((a.1 + a.2) * (b.1 + b.2)) (a.1 * b.1 + a.2 * b.2) := rfl

/-- The double-width cross product used for limb 0 of `fp3_muln_low`:
`(a1 + a2) * (b1 + b2) - (a1*b1 + a2*b2)` computed through the
corrected subtraction. -/
def fp3_cross12 (p : Int) (N : Nat) (space : Bool) (a b : Int × Int × Int) : Int :=
  fp_subc_low p N (fpAdd p space a.2.1 a.2.2 * fpAdd p space b.2.1 b.2.2)
    (a.2.1 * b.2.1 + a.2.2 * b.2.2)

/-- The double-width cross product used for limb 1 of `fp3_muln_low`. -/
def fp3_cross01 (p : Int) (N : Nat) (space : Bool) (a b : Int × Int × Int) : Int :=
  fp_subc_low p N (fpAdd p space a.1 a.2.1 * fpAdd p space b.1 b.2.1)
    (a.1 * b.1 + a.2.1 * b.2.1)

/-- The double-width cross product used for limb 2 of `fp3_muln_low`. -/
def fp3_cross02 (p : Int) (N : Nat) (space : Bool) (a b : Int × Int × Int) : Int :=
  fp_subc_low p N (fpAdd p space a.1 a.2.2 * fpAdd p space b.1 b.2.2)
    (a.1 * b.1 + a.2.2 * b.2.2)

theorem fp3_muln_low_limb0 (p : Int) (N : Nat) (space : Bool) (cnr : Int)
    (a b : Int × Int × Int) :
    (fp3_muln_low p N space cnr a b).1 =
      (fun x => fp_subc_low p N x (fp3_cross12 p N space a b))^[nresIters cnr]
        (fp_subc_low p N (a.1 * b.1) (fp3_cross12 p N space a b)) := rfl

theorem fp3_muln_low_limb1 (p : Int) (N : Nat) (space : Bool) (cnr : Int)
    (a b : Int × Int × Int) :
    (fp3_muln_low p N space cnr a b).2.1 =
      (fun x => fp_subc_low p N x (a.2.2 * b.2.2))^[nresIters cnr]
        (fp_subc_low p N (fp3_cross01 p N space a b) (a.2.2 * b.2.2)) := rfl

theorem fp3_muln_low_limb2 (p : Int) (N : Nat) (space : Bool) (cnr : Int)
    (a b : Int × Int × Int) :
    (fp3_muln_low p N space cnr a b).2.2 =
      fp_addc_low p N (fp3_cross02 p N space a b) (a.2.1 * b.2.1) := rfl

/-- The value an iterated corrected subtraction represents modulo `p`:
starting from `x - d` and subtracting `d` a further `k` times yields
`y - (k + 1) * e` whenever `x ≡ y` and `d ≡ e`. -/
theorem iterChain (p : Int) (N : Nat) (x y d e : Int) (k : Nat)
    (hx : x ≡ y [ZMOD p]) (hd : d ≡ e [ZMOD p]) :
    (fun z => fp_subc_low p N z d)^[k] (fp_subc_low p N x d) ≡
      y - ((k : Int) + 1) * e [ZMOD p] := by
  have h1 := iter_subc_modEq p N d k (fp_subc_low p N x d)
  have h2 := (fp_subc_low_modEq p N x d).sub (Int.ModEq.refl ((k : Int) * d))
  have h3 := h1.trans h2
  have h4 : x - d - (k : Int) * d = x - ((k : Int) + 1) * d := by ring
  rw [h4] at h3
  exact h3.trans (hx.sub ((Int.ModEq.refl ((k : Int) + 1)).mul hd))

theorem fp3_cross12_modEq (p : Int) (N : Nat) (space : Bool) (a b : Int × Int × Int) :
    fp3_cross12 p N space a b ≡ a.2.1 * b.2.2 + a.2.2 * b.2.1 [ZMOD p] := by
  unfold fp3_cross12
  have h := (fp_subc_low_modEq p N _ _).trans
    (((fpAdd_modEq p space a.2.1 a.2.2).mul (fpAdd_modEq p space b.2.1 b.2.2)).sub
      (Int.ModEq.refl (a.2.1 * b.2.1 + a.2.2 * b.2.2)))
  have e : (a.2.1 + a.2.2) * (b.2.1 + b.2.2) - (a.2.1 * b.2.1 + a.2.2 * b.2.2) =
      a.2.1 * b.2.2 + a.2.2 * b.2.1 := by ring
  rw [e] at h
  exact h

theorem fp3_cross01_modEq (p : Int) (N : Nat) (space : Bool) (a b : Int × Int × Int) :
    fp3_cross01 p N space a b ≡ a.1 * b.2.1 + a.2.1 * b.1 [ZMOD p] := by
  unfold fp3_cross01
  have h := (fp_subc_low_modEq p N _ _).trans
    (((fpAdd_modEq p space a.1 a.2.1).mul (fpAdd_modEq p space b.1 b.2.1)).sub
      (Int.ModEq.refl (a.1 * b.1 + a.2.1 * b.2.1)))
  have e : (a.1 + a.2.1) * (b.1 + b.2.1) - (a.1 * b.1 + a.2.1 * b.2.1) =
      a.1 * b.2.1 + a.2.1 * b.1 := by ring
  rw [e] at h
  exact h

theorem fp3_cross02_modEq (p : Int) (N : Nat) (space : Bool) (a b : Int × Int × Int) :
    fp3_cross02 p N space a b ≡ a.1 * b.2.2 + a.2.2 * b.1 [ZMOD p] := by
  unfold fp3_cross02
  have h := (fp_subc_low_modEq p N _ _).trans
    (((fpAdd_modEq p space a.1 a.2.2).mul (fpAdd_modEq p space b.1 b.2.2)).sub
      (Int.ModEq.refl (a.1 * b.1 + a.2.2 * b.2.2)))
  have e : (a.1 + a.2.2) * (b.1 + b.2.2) - (a.1 * b.1 + a.2.2 * b.2.2) =
      a.1 * b.2.2 + a.2.2 * b.1 := by ring
  rw [e] at h
  exact h

/-! ## Claims about the extension-field kernels -/

/-- Claim C2: for all inputs (in particular all reduced inputs including
the boundary values 0, 1, p-1) and a negative quadratic non-residue index
`qnr`, the unreduced double-width pair produced by `fp2_muln_low`
represents, coordinatewise modulo `p`, the same field element as the
schoolbook 4-multiplication result
`(a0*b0 + qnr*a1*b1, a0*b1 + a1*b0)`. -/
theorem claim_C2 (p : Int) (N : Nat) (space : Bool) (qnr : Int)
    (a b : Int × Int) (hq : qnr ≤ -1) :
    ((fp2_muln_low p N space false qnr a b).1 ≡
      (fp2_schoolbook qnr a b).1 [ZMOD p]) ∧
    ((fp2_muln_low p N space false qnr a b).2 ≡
      (fp2_schoolbook qnr a b).2 [ZMOD p]) := by
  have hk := nresIters_cast qnr hq
  constructor
  · rw [fp2_muln_low_fst_false]
    have h := iterChain p N (a.1 * b.1) (a.1 * b.1) (a.2 * b.2) (a.2 * b.2)
      (nresIters qnr) (Int.ModEq.refl _) (Int.ModEq.refl _)
    have e : a.1 * b.1 - (((nresIters qnr : Nat) : Int) + 1) * (a.2 * b.2) =
        a.1 * b.1 + qnr * (a.2 * b.2) := by rw [hk]; ring
    rw [e] at h
    exact h
  · rw [fp2_muln_low_snd_eq]
    have h := (fpSubDbl_modEq p N space _ _).trans
      (((fpAdd_modEq p space a.1 a.2).mul (fpAdd_modEq p space b.1 b.2)).sub
        (fpAddDbl_modEq p N space (a.1 * b.1) (a.2 * b.2)))
    have e : (a.1 + a.2) * (b.1 + b.2) - (a.1 * b.1 + a.2 * b.2) =
        a.1 * b.2 + a.2 * b.1 := by ring
    rw [e] at h
    exact h

/-- Witness for C2 at `p = 13`, `qnr = -2`, `a = (3,5)`, `b = (4,2)`. -/
theorem claim_C2_witness :
    ((-2 : Int) ≤ -1) ∧
    (((fp2_muln_low 13 8 true false (-2) (3, 5) (4, 2)).1 ≡
        (fp2_schoolbook (-2) (3, 5) (4, 2)).1 [ZMOD 13]) ∧
     ((fp2_muln_low 13 8 true false (-2) (3, 5) (4, 2)).2 ≡
        (fp2_schoolbook (-2) (3, 5) (4, 2)).2 [ZMOD 13])) :=
  ⟨by decide, claim_C2 13 8 true (-2) (3, 5) (4, 2) (by decide)⟩

/-- Claim C3: the three double-width limbs produced by `fp3_muln_low`
agree, limb by limb modulo `p`, with the schoolbook 9-multiplication
product over the cubic extension with `v^3 = cnr`: the non-residue is
folded into limbs 0 and 1 by repeated subtraction, while limb 2 adds the
`(0,2)` cross product to `t1 = a1*b1` with no non-residue folding. -/
theorem claim_C3 (p : Int) (N : Nat) (space : Bool) (cnr : Int)
    (a b : Int × Int × Int) (hc : cnr ≤ -1) :
    ((fp3_muln_low p N space cnr a b).1 ≡
      (fp3_schoolbook cnr a b).1 [ZMOD p]) ∧
    ((fp3_muln_low p N space cnr a b).2.1 ≡
      (fp3_schoolbook cnr a b).2.1 [ZMOD p]) ∧
    ((fp3_muln_low p N space cnr a b).2.2 ≡
      (fp3_schoolbook cnr a b).2.2 [ZMOD p]) := by
  have hk := nresIters_cast cnr hc
  refine ⟨?_, ?_, ?_⟩
  · rw [fp3_muln_low_limb0]
    have h := iterChain p N (a.1 * b.1) (a.1 * b.1) (fp3_cross12 p N space a b)
      (a.2.1 * b.2.2 + a.2.2 * b.2.1) (nresIters cnr) (Int.ModEq.refl _)
      (fp3_cross12_modEq p N space a b)
    have e : a.1 * b.1 - (((nresIters cnr : Nat) : Int) + 1) *
        (a.2.1 * b.2.2 + a.2.2 * b.2.1) =
        a.1 * b.1 + cnr * (a.2.1 * b.2.2 + a.2.2 * b.2.1) := by rw [hk]; ring
    rw [e] at h
    exact h
  · rw [fp3_muln_low_limb1]
    have h := iterChain p N (fp3_cross01 p N space a b)
      (a.1 * b.2.1 + a.2.1 * b.1) (a.2.2 * b.2.2) (a.2.2 * b.2.2)
      (nresIters cnr) (fp3_cross01_modEq p N space a b) (Int.ModEq.refl _)
    have e : a.1 * b.2.1 + a.2.1 * b.1 -
        (((nresIters cnr : Nat) : Int) + 1) * (a.2.2 * b.2.2) =
        a.1 * b.2.1 + a.2.1 * b.1 + cnr * (a.2.2 * b.2.2) := by rw [hk]; ring
    rw [e] at h
    exact h
  · rw [fp3_muln_low_limb2]
    have h := (fp_addc_low_modEq p N _ _).trans
      ((fp3_cross02_modEq p N space a b).add (Int.ModEq.refl (a.2.1 * b.2.1)))
    exact h

/-- Witness for C3 at `p = 13`, `cnr = -2`, concrete triples. -/
theorem claim_C3_witness :
    ((-2 : Int) ≤ -1) ∧
    (((fp3_muln_low 13 8 true (-2) (3, 5, 7) (4, 2, 6)).1 ≡
        (fp3_schoolbook (-2) (3, 5, 7) (4, 2, 6)).1 [ZMOD 13]) ∧
     ((fp3_muln_low 13 8 true (-2) (3, 5, 7) (4, 2, 6)).2.1 ≡
        (fp3_schoolbook (-2) (3, 5, 7) (4, 2, 6)).2.1 [ZMOD 13]) ∧
     ((fp3_muln_low 13 8 true (-2) (3, 5, 7) (4, 2, 6)).2.2 ≡
        (fp3_schoolbook (-2) (3, 5, 7) (4, 2, 6)).2.2 [ZMOD 13])) :=
  ⟨by decide, claim_C3 13 8 true (-2) (3, 5, 7) (4, 2, 6) (by decide)⟩

/-- Claim C5: after the initial corrected subtraction producing limb 0,
`fp2_muln_low` performs exactly `(-qnr - 1)` further corrected
subtractions of the second diagonal product, and `fp3_muln_low` performs
`(-cnr - 1)` further subtractions of the cross product in limb 0 and of
`t2` in limb 1: the loop iteration count equals the absolute value of the
negative non-residue index minus one. -/
theorem claim_C5 (p : Int) (N : Nat) (space : Bool) (qnr cnr : Int)
    (a b : Int × Int) (u v : Int × Int × Int)
    (hq : qnr ≤ -1) (hc : cnr ≤ -1) :
    ((fp2_muln_low p N space false qnr a b).1 =
      (fun x => fp_subc_low p N x (a.2 * b.2))^[nresIters qnr]
        (fp_subc_low p N (a.1 * b.1) (a.2 * b.2))) ∧
    ((nresIters qnr : Int) = -qnr - 1) ∧
    ((fp3_muln_low p N space cnr u v).1 =
      (fun x => fp_subc_low p N x (fp3_cross12 p N space u v))^[nresIters cnr]
        (fp_subc_low p N (u.1 * v.1) (fp3_cross12 p N space u v))) ∧
    ((fp3_muln_low p N space cnr u v).2.1 =
      (fun x => fp_subc_low p N x (u.2.2 * v.2.2))^[nresIters cnr]
        (fp_subc_low p N (fp3_cross01 p N space u v) (u.2.2 * v.2.2))) ∧
    ((nresIters cnr : Int) = -cnr - 1) :=
  ⟨fp2_muln_low_fst_false p N space qnr a b, nresIters_cast qnr hq,
   fp3_muln_low_limb0 p N space cnr u v, fp3_muln_low_limb1 p N space cnr u v,
   nresIters_cast cnr hc⟩

/-- Witness for C5 at `qnr = -2`, `cnr = -5`, concrete operands. -/
theorem claim_C5_witness :
    ((-2 : Int) ≤ -1) ∧ ((-5 : Int) ≤ -1) ∧
    (((fp2_muln_low 13 8 false false (-2) (3, 5) (4, 2)).1 =
        (fun x => fp_subc_low 13 8 x ((3, 5).2 * (4, 2).2))^[nresIters (-2)]
          (fp_subc_low 13 8 ((3, 5).1 * (4, 2).1) ((3, 5).2 * (4, 2).2))) ∧
     ((nresIters (-2 : Int) : Int) = -(-2) - 1) ∧
     (((fp3_muln_low 13 8 false (-5) (3, 5, 7) (4, 2, 6)).1 =
        (fun x => fp_subc_low 13 8 x (fp3_cross12 13 8 false (3, 5, 7) (4, 2, 6)))^[nresIters (-5)]
          (fp_subc_low 13 8 ((3, 5, 7).1 * (4, 2, 6).1)
            (fp3_cross12 13 8 false (3, 5, 7) (4, 2, 6)))) ∧
      ((fp3_muln_low 13 8 false (-5) (3, 5, 7) (4, 2, 6)).2.1 =
        (fun x => fp_subc_low 13 8 x ((3, 5, 7).2.2 * (4, 2, 6).2.2))^[nresIters (-5)]
          (fp_subc_low 13 8 (fp3_cross01 13 8 false (3, 5, 7) (4, 2, 6))
            ((3, 5, 7).2.2 * (4, 2, 6).2.2))) ∧
      ((nresIters (-5 : Int) : Int) = -(-5) - 1))) := by
  have h := claim_C5 13 8 false (-2) (-5) (3, 5) (4, 2) (3, 5, 7) (4, 2, 6)
    (by decide) (by decide)
  exact ⟨by decide, by decide, h.1, h.2.1, h.2.2.1, h.2.2.2.1, h.2.2.2.2⟩

/-- Claim C10: when `FP_QNRES` is set, `fp2_muln_low` and `fp2_mulc_low`
omit the quadratic non-residue loop, so they ignore `qnr` entirely and
coincide with the unguarded build at `qnr = -1`; the cubic loops of
`fp3_muln_low` have no such guard and always run
`nresIters cnr = -cnr - 1` times. -/
theorem claim_C10 (p : Int) (N : Nat) (space : Bool) (qnr qnr' cnr : Int)
    (a b : Int × Int) (u v : Int × Int × Int) (hc : cnr ≤ -1) :
    (fp2_muln_low p N space true qnr a b = fp2_muln_low p N space true qnr' a b) ∧
    (fp2_muln_low p N space true qnr a b = fp2_muln_low p N space false (-1) a b) ∧
    (fp2_mulc_low p N true qnr a b = fp2_mulc_low p N true qnr' a b) ∧
    (fp2_mulc_low p N true qnr a b = fp2_mulc_low p N false (-1) a b) ∧
    ((fp3_muln_low p N space cnr u v).1 =
      (fun x => fp_subc_low p N x (fp3_cross12 p N space u v))^[nresIters cnr]
        (fp_subc_low p N (u.1 * v.1) (fp3_cross12 p N space u v))) ∧
    ((nresIters cnr : Int) = -cnr - 1) :=
  ⟨rfl, rfl, rfl, rfl, fp3_muln_low_limb0 p N space cnr u v,
   nresIters_cast cnr hc⟩

/-- Witness for C10 at `qnr = 7`, `qnr1 = -3`, `cnr = -2`. -/
theorem claim_C10_witness :
    ((-2 : Int) ≤ -1) ∧
    ((fp2_muln_low 13 8 true true 7 (3, 5) (4, 2) =
        fp2_muln_low 13 8 true true (-3) (3, 5) (4, 2)) ∧
     (fp2_muln_low 13 8 true true 7 (3, 5) (4, 2) =
        fp2_muln_low 13 8 true false (-1) (3, 5) (4, 2)) ∧
     (fp2_mulc_low 13 8 true 7 (3, 5) (4, 2) =
        fp2_mulc_low 13 8 true (-3) (3, 5) (4, 2)) ∧
     (fp2_mulc_low 13 8 true 7 (3, 5) (4, 2) =
        fp2_mulc_low 13 8 false (-1) (3, 5) (4, 2)) ∧
     ((fp3_muln_low 13 8 true (-2) (3, 5, 7) (4, 2, 6)).1 =
       (fun x => fp_subc_low 13 8 x (fp3_cross12 13 8 true (3, 5, 7) (4, 2, 6)))^[nresIters (-2)]
         (fp_subc_low 13 8 ((3, 5, 7).1 * (4, 2, 6).1)
           (fp3_cross12 13 8 true (3, 5, 7) (4, 2, 6)))) ∧
     ((nresIters (-2 : Int) : Int) = -(-2) - 1)) :=
  ⟨by decide, claim_C10 13 8 true 7 (-3) (-2) (3, 5) (4, 2) (3, 5, 7) (4, 2, 6)
    (by decide)⟩

/-- Claim C7: `fp2_muln_low` and `fp2_mulc_low`, each followed by the
reduction of its double-width result, produce identical fully reduced
field elements for the same logical inputs, in every combination of the
`FP_SPACE` and `FP_QNRES` build flags. -/
theorem claim_C7 (p : Int) (N : Nat) (space qnres : Bool) (qnr : Int)
    (a b : Int × Int) :
    fp2_rdcn_low p (fp2_muln_low p N space qnres qnr a b) =
      fp2_rdcn_low p (fp2_mulc_low p N qnres qnr a b) := by
  unfold fp2_rdcn_low
  have hsnd : (fp2_muln_low p N space qnres qnr a b).2 ≡
      (fp2_mulc_low p N qnres qnr a b).2 [ZMOD p] := by
    rw [fp2_muln_low_snd_eq, fp2_mulc_low_snd_eq]
    have h1 := (fpSubDbl_modEq p N space
        (fpAdd p space a.1 a.2 * fpAdd p space b.1 b.2)
        (fpAddDbl p N space (a.1 * b.1) (a.2 * b.2))).trans
      (((fpAdd_modEq p space a.1 a.2).mul (fpAdd_modEq p space b.1 b.2)).sub
        (fpAddDbl_modEq p N space (a.1 * b.1) (a.2 * b.2)))
    exact h1
  have hfst : (fp2_muln_low p N space qnres qnr a b).1 ≡
      (fp2_mulc_low p N qnres qnr a b).1 [ZMOD p] := by
    cases qnres
    · rw [fp2_muln_low_fst_false, fp2_mulc_low_fst_false]
      have h1 := iterChain p N (a.1 * b.1) (a.1 * b.1) (a.2 * b.2) (a.2 * b.2)
        (nresIters qnr) (Int.ModEq.refl _) (Int.ModEq.refl _)
      have h2 : (fun x => fp_subd_low x (a.2 * b.2))^[nresIters qnr]
          (fp_subd_low (a.1 * b.1) (a.2 * b.2)) + p * 2 ^ (N - 2) ≡
          a.1 * b.1 - ((nresIters qnr : Int) + 1) * (a.2 * b.2) [ZMOD p] := by
        rw [iter_subd]
        show (_ + p * 2 ^ (N - 2)) % p = _ % p
        rw [Int.add_mul_emod_self_left]
        have e : fp_subd_low (a.1 * b.1) (a.2 * b.2) - (nresIters qnr : Int) * (a.2 * b.2) =
            a.1 * b.1 - ((nresIters qnr : Int) + 1) * (a.2 * b.2) := by
          unfold fp_subd_low; ring
        rw [e]
      exact h1.trans h2.symm
    · rw [fp2_muln_low_fst_true, fp2_mulc_low_fst_true]
      have h1 := fp_subc_low_modEq p N (a.1 * b.1) (a.2 * b.2)
      have h2 : fp_subd_low (a.1 * b.1) (a.2 * b.2) + p * 2 ^ (N - 2) ≡
          a.1 * b.1 - a.2 * b.2 [ZMOD p] := by
        show (_ + p * 2 ^ (N - 2)) % p = _ % p
        rw [Int.add_mul_emod_self_left]
        rfl
      exact h1.trans h2.symm
  exact Prod.ext hfst hsnd

/-- Counterexample to claim C8 as stated: at `p = 13`, `a = b = (12, 12)`,
`fp2_mulc_low` does not perform the step sequence with the non-headroom
(result always below `p`) primitives: its sums `a0 + a1 = 24` and cross
term exceed `p`, so its output differs from the claimed kernel built from
`fp_addm_low`/`fp_addc_low`/`fp_subc_low`. -/
theorem claim_C8_counterexample :
    fp2_mulc_low 13 8 false (-1) (12, 12) (12, 12) ≠
      fp2_mulc_claimed 13 8 false (-1) (12, 12) (12, 12) := by
  decide

/-- Claim C8, amended: `fp2_mulc_low` performs the same Karatsuba step
sequence as `fp2_muln_low` except that every addition and subtraction
uses the plain no-reduction ("space"-mode) primitives `fp_addn_low`,
`fp_addd_low` and `fp_subd_low` (not the always-below-`p` ones), and
afterwards the real-part double-width limb is normalized by adding the
prime shifted into position, `p * 2 ^ (N - 2)`, before the function
returns; `fp2_muln_low` is the same abstract sequence instantiated with
the `FP_SPACE`-selected primitives and the correcting real-part
subtraction. -/
theorem claim_C8 (p : Int) (N : Nat) (space qnres : Bool) (qnr : Int)
    (a b : Int × Int) :
    (fp2_mulc_low p N qnres qnr a b =
      ((fp2_karatsuba fp_addn_low fp_addd_low fp_subd_low fp_subd_low
          qnres qnr a b).1 + p * 2 ^ (N - 2),
       (fp2_karatsuba fp_addn_low fp_addd_low fp_subd_low fp_subd_low
          qnres qnr a b).2)) ∧
    (fp2_muln_low p N space qnres qnr a b =
      fp2_karatsuba (fpAdd p space) (fpAddDbl p N space) (fp_subc_low p N)
        (fpSubDbl p N space) qnres qnr a b) :=
  ⟨rfl, rfl⟩

/-- Claim C6: if the scoped double-width buffer acquisition inside
`fp2_mulm_low` or `fp3_mulm_low` fails, the call signals a fault, the
caller's output buffer is left unmodified, and on every exit path
(normal completion, acquisition fault, reduction fault) the scoped
buffer is released exactly as many times as it was acquired. -/
theorem claim_C6 (allocOk rdcOk : Bool) (p : Int) (N : Nat)
    (space qnres : Bool) (qnr cnr : Int) (c a b : Int × Int)
    (c3 a3 b3 : Int × Int × Int) :
    ((fp2_mulm_low allocOk rdcOk p N space qnres qnr c a b).released =
      (fp2_mulm_low allocOk rdcOk p N space qnres qnr c a b).acquired) ∧
    (allocOk = false →
      (fp2_mulm_low allocOk rdcOk p N space qnres qnr c a b).fault = true ∧
      (fp2_mulm_low allocOk rdcOk p N space qnres qnr c a b).out = c) ∧
    ((fp3_mulm_low allocOk rdcOk p N space cnr c3 a3 b3).released =
      (fp3_mulm_low allocOk rdcOk p N space cnr c3 a3 b3).acquired) ∧
    (allocOk = false →
      (fp3_mulm_low allocOk rdcOk p N space cnr c3 a3 b3).fault = true ∧
      (fp3_mulm_low allocOk rdcOk p N space cnr c3 a3 b3).out = c3) := by
  cases allocOk <;> cases rdcOk <;>
    simp [fp2_mulm_low, fp3_mulm_low]

/-- Witness for C6: a forced acquisition fault at concrete inputs signals
the fault, leaves the output `(9, 9)` resp. `(9, 9, 9)` untouched, and
releases exactly what was acquired. -/
theorem claim_C6_witness :
    ((fp2_mulm_low false true 13 8 true false (-1) (9, 9) (3, 5) (4, 2)).released =
      (fp2_mulm_low false true 13 8 true false (-1) (9, 9) (3, 5) (4, 2)).acquired) ∧
    ((fp2_mulm_low false true 13 8 true false (-1) (9, 9) (3, 5) (4, 2)).fault = true) ∧
    ((fp2_mulm_low false true 13 8 true false (-1) (9, 9) (3, 5) (4, 2)).out = (9, 9)) ∧
    ((fp3_mulm_low false true 13 8 true (-1) (9, 9, 9) (3, 5, 7) (4, 2, 6)).released =
      (fp3_mulm_low false true 13 8 true (-1) (9, 9, 9) (3, 5, 7) (4, 2, 6)).acquired) ∧
    ((fp3_mulm_low false true 13 8 true (-1) (9, 9, 9) (3, 5, 7) (4, 2, 6)).fault = true) ∧
    ((fp3_mulm_low false true 13 8 true (-1) (9, 9, 9) (3, 5, 7) (4, 2, 6)).out = (9, 9, 9)) := by
  have h := claim_C6 false true 13 8 true false (-1) (-1) (9, 9) (3, 5) (4, 2)
    (9, 9, 9) (3, 5, 7) (4, 2, 6)
  exact ⟨h.1, (h.2.1 rfl).1, (h.2.1 rfl).2, h.2.2.1, (h.2.2.2 rfl).1,
    (h.2.2.2 rfl).2⟩

/-! ## Architecture abstraction (`src/unnamed/part_000`) -/

/-- The number of leading zero bits of `x` viewed as a `w`-bit word
(the specified meaning of a leading-zero count at width `w`). -/
def clz (w x : Nat) : Nat :=
  w - Nat.size x

/-- Modelled from the spec: `lzcnt32_hard` from the missing `lzcnt.inc`,
the hardware leading-zero count at its declared 32-bit width. -/
def lzcnt32_hard (x : Nat) : Nat :=
  32 - Nat.size x

/-- Modelled from the spec: `lzcnt32_soft`, the portable software
fallback counting leading zeros of a 32-bit word. -/
def lzcnt32_soft (x : Nat) : Nat :=
  32 - Nat.size x

/-- `arch_init` from `src/unnamed/part_000`: binds the dispatch pointer
`lzcnt_ptr` to the hardware implementation when the processor has the
instruction, otherwise to the software fallback. -/
def arch_init (hasHw : Bool) : Nat → Nat :=
  if hasHw then lzcnt32_hard else lzcnt32_soft

/-- `arch_lzcnt` from `src/unnamed/part_000`: invokes the implementation
bound at initialization on the `uint32_t` truncation of `x` and subtracts
`8 * sizeof(uint32_t) - WSIZE`. -/
def arch_lzcnt (hasHw : Bool) (wsize x : Nat) : Nat :=
  arch_init hasHw (x % 2 ^ 32) - (8 * 4 - wsize)

/-- Claim C9: for every machine word `x` (a value of the library's
configured width `WSIZE`, which on this 32-bit backend is at most 32),
`arch_lzcnt` returns the number of leading zero bits of `x` in a word of
width `WSIZE`, whichever implementation `arch_init` bound. -/
theorem claim_C9 (hasHw : Bool) (wsize x : Nat)
    (hw : wsize ≤ 32) (hx : x < 2 ^ wsize) :
    arch_lzcnt hasHw wsize x = clz wsize x := by
  have hx32 : x < 2 ^ 32 := lt_of_lt_of_le hx (Nat.pow_le_pow_right (by omega) hw)
  have hxmod : x % 2 ^ 32 = x := Nat.mod_eq_of_lt hx32
  have hsize : Nat.size x ≤ wsize := Nat.size_le.mpr hx
  unfold arch_lzcnt arch_init lzcnt32_hard lzcnt32_soft clz
  cases hasHw <;> simp only [if_true, if_false, Bool.false_eq_true] <;>
    rw [hxmod] <;> omega

/-- Witness for C9 at `wsize = 16`, `x = 0`. -/
theorem claim_C9_witness :
    (16 ≤ 32) ∧ (0 < 2 ^ 16) ∧ arch_lzcnt true 16 0 = clz 16 0 :=
  ⟨by decide, by decide, claim_C9 true 16 0 (by decide) (by decide)⟩

/-! ## The Comba squaring kernel (`relic_bn_sqr_low.c`) -/

/-- The three-word rolling accumulator (R0, R1, R2) of the Comba loops. -/
structure Comba3 where
  r0 : Nat
  r1 : Nat
  r2 : Nat

/-- Value of the accumulator triple in base `2 ^ W`. -/
def c3val (W : Nat) (t : Comba3) : Nat :=
  t.r0 + 2 ^ W * t.r1 + 2 ^ W * 2 ^ W * t.r2

/-- Little-endian base-`2 ^ W` value of a digit list. -/
def listVal (W : Nat) : List Nat → Nat
  | [] => 0
  | d :: ds => d + 2 ^ W * listVal W ds

/-- `COMBA_STEP_SQR` from `relic_bn_sqr_low.c`: doubles the product
`a * b` and folds it into the triple register, all in `2 ^ W`-bit word
arithmetic with the carry bits recovered by the wrap-around comparisons
of the C macro. -/
def combaStepSqr (W : Nat) (t : Comba3) (a b : Nat) : Comba3 :=
  let B := 2 ^ W
  let lo := a * b % B
  let hi := a * b / B
  let s0 := (lo + lo) % B
  let s1 := (hi + hi + (if s0 < lo then 1 else 0)) % B
  let R0 := (t.r0 + s0) % B
  let R1 := (t.r1 + (if R0 < s0 then 1 else 0)) % B
  let R2 := (t.r2 + (if R1 < t.r1 then 1 else 0)) % B
  let R1b := (R1 + s1) % B
  let R2b := (R2 + (if R1b < s1 then 1 else 0)) % B
  let R2c := (R2b + (if s1 < hi then 1 else 0)) % B
  ⟨R0, R1b, R2c⟩

/-- `COMBA_FINAL` from `relic_bn_sqr_low.c`: folds the single diagonal
square `a * a` (undoubled) into the triple register. -/
def combaFinal (W : Nat) (t : Comba3) (a : Nat) : Comba3 :=
  let B := 2 ^ W
  let lo := a * a % B
  let hi := a * a / B
  let R0 := (t.r0 + lo) % B
  let R1 := (t.r1 + (if R0 < lo then 1 else 0)) % B
  let R2 := (t.r2 + (if R1 < t.r1 then 1 else 0)) % B
  let R1b := (R1 + hi) % B
  let R2b := (R2 + (if R1b < hi then 1 else 0)) % B
  ⟨R0, R1b, R2b⟩

/-- The inner Comba column loop: `n` steps pairing `a[p + j]` with
`a[q - j]` as the two pointers walk towards each other. -/
def combaLoop (W : Nat) (a : Nat → Nat) : Nat → Nat → Nat → Comba3 → Comba3
  | 0, _, _, t => t
  | n + 1, p, q, t => combaLoop W a n (p + 1) (q - 1) (combaStepSqr W t (a p) (a q))

/-- One output column of `bn_sqrn_low`: the paired steps followed by the
diagonal `COMBA_FINAL` when the column length is odd. -/
def combaColumn (W : Nat) (a : Nat → Nat) (t : Comba3) (p q n : Nat)
    (dg : Bool) : Comba3 :=
  let t1 := combaLoop W a n p q t
  if dg then combaFinal W t1 (a (p + n)) else t1

/-- A Comba output pass: one column per iteration, described by the
per-column start pointers `cp`/`cq`, pair count `cn` and diagonal flag
`cd`; each iteration emits `R0` and shifts the triple register down one
word. Both loops of `bn_sqrn_low` are instances. -/
def sqrnPass (W : Nat) (a : Nat → Nat) (cp cq cn : Nat → Nat)
    (cd : Nat → Bool) : Nat → Nat → Comba3 → List Nat × Comba3
  | 0, _, t => ([], t)
  | rem + 1, i, t =>
    let t1 := combaColumn W a t (cp i) (cq i) (cn i) (cd i)
    let rest := sqrnPass W a cp cq cn cd rem (i + 1) ⟨t1.r1, t1.r2, 0⟩
    (t1.r0 :: rest.1, rest.2)

/-- `bn_sqrn_low` from `relic_bn_sqr_low.c`: Comba squaring of the
`size`-digit operand `a` into `2 * size` output digits.  The first pass
produces columns `i = 0 .. size-1` (pairs `a[j] * a[i-j]`,
`j < (i+1)/2`, diagonal when `i` is even); the second pass produces
columns `size + i` (pairs `a[i+1+j] * a[size-1-j]`,
`j < (size-1-i)/2`, diagonal when `size - i` is even), the triple
register rolling across both loops. -/
def bn_sqrn_low (W : Nat) (a : Nat → Nat) (size : Nat) : List Nat :=
  let p1 := sqrnPass W a (fun _ => 0) (fun i => i) (fun i => (i + 1) / 2)
    (fun i => decide (i % 2 = 0)) size 0 ⟨0, 0, 0⟩
  let p2 := sqrnPass W a (fun i => i + 1) (fun _ => size - 1)
    (fun i => (size - 1 - i) / 2) (fun i => decide ((size - i) % 2 = 0))
    size 0 p1.2
  p1.1 ++ p2.1

/-- One iteration of the `bn_sqra_low` loop body: fold
`2 * t * a[i]` plus the carry word `c0` into the accumulator digit `ci`,
producing the new digit, the new carry word and the new delayed carry. -/
def sqraStepFn (W t ai ci c0 c1 : Nat) : Nat × Nat × Nat :=
  let B := 2 ^ W
  let lo := t * ai % B
  let hi := t * ai / B
  let r0 := (lo + lo) % B
  let r1 := (hi + hi + (if r0 < lo then 1 else 0)) % B
  let s0 := (r0 + c0) % B
  let s1 := (r1 + (if s0 < r0 then 1 else 0)) % B
  let u0 := (s0 + ci) % B
  let u1 := (s1 + (if u0 < s0 then 1 else 0)) % B
  let c0n := (u1 + c1) % B
  let c1n := if u1 < s1 ∨ s1 < r1 ∨ r1 < hi ∨ c0n < c1 then 1 else 0
  (u0, c0n, c1n)

/-- The tail of `bn_sqra_low` after the first digit: the loop
`for (i = 1; i < size; i++)` walks the remaining multiplicand digits and
accumulator digits in lockstep; when the multiplicand runs out, the
final lines `c[size] += c0; c1 += (c[size] < c0); return c1;` act on the
next accumulator digit. -/
def sqraRest (W t : Nat) : List Nat → List Nat → Nat → Nat → List Nat × Nat
  | [], [], _, c1 => ([], c1)
  | [], clast :: rest2, c0, c1 =>
    let B := 2 ^ W
    let cl := (clast + c0) % B
    let ret := (c1 + (if cl < c0 then 1 else 0)) % B
    (cl :: rest2, ret)
  | _ :: _, [], _, c1 => ([], c1)
  | ai :: as, ci :: cs, c0, c1 =>
    let s := sqraStepFn W t ai ci c0 c1
    let rest := sqraRest W t as cs s.2.1 s.2.2
    (s.1 :: rest.1, rest.2)

/-- `bn_sqra_low` from `relic_bn_sqr_low.c`: accumulate the column
contribution of digit `a[0]` — its square plus twice its product with
the remaining digits — into the `size + 1`-digit accumulator `c`,
returning the carry digit that overflows past `c[size]`. -/
def bn_sqra_low (W : Nat) (c a : List Nat) : List Nat × Nat :=
  match a, c with
  | t :: as, ci :: cs =>
    let B := 2 ^ W
    let lo := t * t % B
    let hi := t * t / B
    let d0 := (lo + ci) % B
    let cc0 := (hi + (if d0 < lo then 1 else 0)) % B
    let r := sqraRest W t as cs cc0 0
    (d0 :: r.1, r.2)
  | _, _ => (c, 0)

/-- The wrap-around carry idiom of the C kernels: after a word addition
`(x + y) % B`, the comparison of the result against the addend `y`
recovers the lost carry exactly. -/
theorem wrap_eq (B x y : Nat) (hx : x < B) (hy : y < B) :
    (x + y) % B + (if (x + y) % B < y then 1 else 0) * B = x + y := by
  rcases Nat.lt_or_ge (x + y) B with h | h
  · rw [Nat.mod_eq_of_lt h]
    have hn : ¬ (x + y < y) := by omega
    rw [if_neg hn]
    omega
  · have h2 : (x + y) % B = x + y - B := by
      rw [Nat.mod_eq_sub_mod h, Nat.mod_eq_of_lt (by omega)]
    rw [h2]
    have hp : x + y - B < y := by omega
    rw [if_pos hp]
    omega

/-- High/low split of a single digit product: the high word is at most
`B - 2`, and when it is exactly `B - 2` the low word is at most `1`. -/
theorem prod_hi_lo (B a b : Nat) (hB : 2 ≤ B) (ha : a < B) (hb : b < B) :
    B * (a * b / B) + a * b % B = a * b ∧ a * b % B < B ∧
      a * b / B + 2 ≤ B ∧ (a * b / B = B - 2 → a * b % B ≤ 1) := by
  obtain ⟨C, rfl⟩ : ∃ C, B = C + 2 := ⟨B - 2, by omega⟩
  have hdm := Nat.div_add_mod (a * b) (C + 2)
  have hmlt : a * b % (C + 2) < C + 2 := Nat.mod_lt _ (by omega)
  have h1 : a * b ≤ (C + 1) * (C + 1) := Nat.mul_le_mul (by omega) (by omega)
  have hsq : (C + 1) * (C + 1) = (C + 2) * C + 1 := by ring
  refine ⟨hdm, hmlt, ?_, ?_⟩
  · by_contra hcon
    push_neg at hcon
    have h2 : (C + 2) * (C + 1) ≤ (C + 2) * (a * b / (C + 2)) :=
      Nat.mul_le_mul_left _ (by omega)
    have h3 : (C + 2) * (C + 1) = (C + 2) * C + (C + 2) := by ring
    omega
  · intro hq
    have h4 : (C + 2) * (a * b / (C + 2)) = (C + 2) * C := by rw [hq]; simp
    omega

/-- Value identity for one `COMBA_STEP_SQR`, phrased over the raw word
quantities: the updated triple plus a multiple of `B ^ 3` (the carries
that fall off the top of the register) equals the old triple plus twice
the product. -/
theorem stepAux (B lo hi r0 r1 r2 s0 s1 R0 R1 R2 R1b R2b R2c P : Nat)
    (hB : 2 ≤ B) (hlo : lo < B) (hhi : hi + 2 ≤ B)
    (h0 : r0 < B) (h1 : r1 < B) (h2 : r2 < B)
    (hP : B * hi + lo = P)
    (hs0 : s0 = (lo + lo) % B)
    (hs1 : s1 = (hi + hi + (if s0 < lo then 1 else 0)) % B)
    (hR0 : R0 = (r0 + s0) % B)
    (hR1 : R1 = (r1 + (if R0 < s0 then 1 else 0)) % B)
    (hR2 : R2 = (r2 + (if R1 < r1 then 1 else 0)) % B)
    (hR1b : R1b = (R1 + s1) % B)
    (hR2b : R2b = (R2 + (if R1b < s1 then 1 else 0)) % B)
    (hR2c : R2c = (R2b + (if s1 < hi then 1 else 0)) % B) :
    ∃ K, (R0 + B * R1b + B * B * R2c) + K * (B * B * B) =
      (r0 + B * r1 + B * B * r2) + 2 * P := by
  set α := (if s0 < lo then 1 else 0) with hα
  have hα1 : α ≤ 1 := by rw [hα]; split <;> omega
  have e1 : s0 + α * B = lo + lo := by
    rw [hα, hs0]
    exact wrap_eq B lo lo hlo hlo
  have hs0B : s0 < B := by rw [hs0]; exact Nat.mod_lt _ (by omega)
  set β := (if s1 < hi then 1 else 0) with hβ
  have e2 : s1 + β * B = hi + α + hi := by
    rw [hβ, hs1, hα]
    rw [show hi + hi + (if s0 < lo then 1 else 0) =
      hi + (if s0 < lo then 1 else 0) + hi from by omega]
    exact wrap_eq B (hi + (if s0 < lo then 1 else 0)) hi (by split <;> omega)
      (by omega)
  have hs1B : s1 < B := by rw [hs1]; exact Nat.mod_lt _ (by omega)
  set γ := (if R0 < s0 then 1 else 0) with hγ
  have hγ1 : γ ≤ 1 := by rw [hγ]; split <;> omega
  have e3 : R0 + γ * B = r0 + s0 := by
    rw [hγ, hR0]
    exact wrap_eq B r0 s0 h0 hs0B
  set δ := (if R1 < r1 then 1 else 0) with hδ
  have e4 : R1 + δ * B = γ + r1 := by
    rw [hδ, hR1, hγ]
    rw [show r1 + (if R0 < s0 then 1 else 0) =
      (if R0 < s0 then 1 else 0) + r1 from by omega]
    exact wrap_eq B (if R0 < s0 then 1 else 0) r1 (by split <;> omega) h1
  have hδ1 : δ ≤ 1 := by rw [hδ]; split <;> omega
  have e5 : B * ((r2 + δ) / B) + R2 = r2 + δ := by
    rw [hR2, hδ]
    exact Nat.div_add_mod _ B
  have hR1B : R1 < B := by rw [hR1]; exact Nat.mod_lt _ (by omega)
  set ε := (if R1b < s1 then 1 else 0) with hε
  have e6 : R1b + ε * B = R1 + s1 := by
    rw [hε, hR1b]
    exact wrap_eq B R1 s1 hR1B hs1B
  have e7 : B * ((R2 + ε) / B) + R2b = R2 + ε := by
    rw [hR2b, hε]
    exact Nat.div_add_mod _ B
  have e8 : B * ((R2b + β) / B) + R2c = R2b + β := by
    rw [hR2c, hβ]
    exact Nat.div_add_mod _ B
  refine ⟨(r2 + δ) / B + (R2 + ε) / B + (R2b + β) / B, ?_⟩
  zify at e1 e2 e3 e4 e5 e6 e7 e8 hP ⊢
  linear_combination e3 + (B : Int) * e6 + (B : Int) * e4 + (B : Int) * e2 +
    e1 + (B : Int) ^ 2 * e8 + (B : Int) ^ 2 * e7 + (B : Int) ^ 2 * e5 + 2 * hP

/-- Value identity for one `COMBA_FINAL`. -/
theorem finAux (B lo hi r0 r1 r2 R0 R1 R2 R1b R2b P : Nat)
    (hB : 2 ≤ B) (hlo : lo < B) (hhi : hi + 2 ≤ B)
    (h0 : r0 < B) (h1 : r1 < B) (h2 : r2 < B)
    (hP : B * hi + lo = P)
    (hR0 : R0 = (r0 + lo) % B)
    (hR1 : R1 = (r1 + (if R0 < lo then 1 else 0)) % B)
    (hR2 : R2 = (r2 + (if R1 < r1 then 1 else 0)) % B)
    (hR1b : R1b = (R1 + hi) % B)
    (hR2b : R2b = (R2 + (if R1b < hi then 1 else 0)) % B) :
    ∃ K, (R0 + B * R1b + B * B * R2b) + K * (B * B * B) =
      (r0 + B * r1 + B * B * r2) + P := by
  set γ := (if R0 < lo then 1 else 0) with hγ
  have e3 : R0 + γ * B = r0 + lo := by
    rw [hγ, hR0]
    exact wrap_eq B r0 lo h0 hlo
  set δ := (if R1 < r1 then 1 else 0) with hδ
  have e4 : R1 + δ * B = γ + r1 := by
    rw [hδ, hR1, hγ]
    rw [show r1 + (if R0 < lo then 1 else 0) =
      (if R0 < lo then 1 else 0) + r1 from by omega]
    exact wrap_eq B (if R0 < lo then 1 else 0) r1 (by split <;> omega) h1
  have hδ1 : δ ≤ 1 := by rw [hδ]; split <;> omega
  have e5 : B * ((r2 + δ) / B) + R2 = r2 + δ := by
    rw [hR2, hδ]
    exact Nat.div_add_mod _ B
  have hR1B : R1 < B := by rw [hR1]; exact Nat.mod_lt _ (by omega)
  set ε := (if R1b < hi then 1 else 0) with hε
  have e6 : R1b + ε * B = R1 + hi := by
    rw [hε, hR1b]
    exact wrap_eq B R1 hi hR1B (by omega)
  have e7 : B * ((R2 + ε) / B) + R2b = R2 + ε := by
    rw [hR2b, hε]
    exact Nat.div_add_mod _ B
  refine ⟨(r2 + δ) / B + (R2 + ε) / B, ?_⟩
  zify at e3 e4 e5 e6 e7 hP ⊢
  linear_combination e3 + (B : Int) * e6 + (B : Int) * e4 +
    (B : Int) ^ 2 * e7 + (B : Int) ^ 2 * e5 + hP

theorem combaStepSqr_lt (W : Nat) (t : Comba3) (a b : Nat) :
    (combaStepSqr W t a b).r0 < 2 ^ W ∧ (combaStepSqr W t a b).r1 < 2 ^ W ∧
      (combaStepSqr W t a b).r2 < 2 ^ W := by
  have hB : 0 < 2 ^ W := Nat.pos_pow_of_pos W (by omega)
  unfold combaStepSqr
  exact ⟨Nat.mod_lt _ hB, Nat.mod_lt _ hB, Nat.mod_lt _ hB⟩

theorem combaFinal_lt (W : Nat) (t : Comba3) (a : Nat) :
    (combaFinal W t a).r0 < 2 ^ W ∧ (combaFinal W t a).r1 < 2 ^ W ∧
      (combaFinal W t a).r2 < 2 ^ W := by
  have hB : 0 < 2 ^ W := Nat.pos_pow_of_pos W (by omega)
  unfold combaFinal
  exact ⟨Nat.mod_lt _ hB, Nat.mod_lt _ hB, Nat.mod_lt _ hB⟩

theorem combaStepSqr_val (W : Nat) (hW : 1 ≤ W) (t : Comba3) (a b : Nat)
    (ha : a < 2 ^ W) (hb : b < 2 ^ W)
    (h0 : t.r0 < 2 ^ W) (h1 : t.r1 < 2 ^ W) (h2 : t.r2 < 2 ^ W) :
    ∃ K : Nat, c3val W (combaStepSqr W t a b) + K * (2 ^ W * 2 ^ W * 2 ^ W) =
      c3val W t + 2 * (a * b) := by
  have hB2 : 2 ≤ 2 ^ W := by
    calc 2 = 2 ^ 1 := by norm_num
    _ ≤ 2 ^ W := Nat.pow_le_pow_right (by omega) hW
  obtain ⟨hdm, hlo, hhi, _⟩ := prod_hi_lo (2 ^ W) a b hB2 ha hb
  obtain ⟨K, hK⟩ := stepAux (2 ^ W) (a * b % 2 ^ W) (a * b / 2 ^ W)
    t.r0 t.r1 t.r2 _ _ _ _ _ _ _ _ (a * b)
    hB2 hlo hhi h0 h1 h2 hdm rfl rfl rfl rfl rfl rfl rfl rfl
  exact ⟨K, hK⟩

theorem combaFinal_val (W : Nat) (hW : 1 ≤ W) (t : Comba3) (a : Nat)
    (ha : a < 2 ^ W)
    (h0 : t.r0 < 2 ^ W) (h1 : t.r1 < 2 ^ W) (h2 : t.r2 < 2 ^ W) :
    ∃ K : Nat, c3val W (combaFinal W t a) + K * (2 ^ W * 2 ^ W * 2 ^ W) =
      c3val W t + a * a := by
  have hB2 : 2 ≤ 2 ^ W := by
    calc 2 = 2 ^ 1 := by norm_num
    _ ≤ 2 ^ W := Nat.pow_le_pow_right (by omega) hW
  obtain ⟨hdm, hlo, hhi, _⟩ := prod_hi_lo (2 ^ W) a a hB2 ha ha
  obtain ⟨K, hK⟩ := finAux (2 ^ W) (a * a % 2 ^ W) (a * a / 2 ^ W)
    t.r0 t.r1 t.r2 _ _ _ _ _ (a * a)
    hB2 hlo hhi h0 h1 h2 hdm rfl rfl rfl rfl rfl
  exact ⟨K, hK⟩

theorem triple_lt (B r0 r1 r2 : Nat) (h0 : r0 < B) (h1 : r1 < B) (h2 : r2 < B) :
    r0 + B * r1 + B * B * r2 < B * B * B := by
  obtain ⟨C, rfl⟩ : ∃ C, B = C + 1 := ⟨B - 1, by omega⟩
  have b1 : (C + 1) * r1 ≤ (C + 1) * C := Nat.mul_le_mul_left _ (by omega)
  have b2 : (C + 1) * (C + 1) * r2 ≤ (C + 1) * (C + 1) * C :=
    Nat.mul_le_mul_left _ (by omega)
  have e : (C + 1) * (C + 1) * (C + 1) =
      C + (C + 1) * C + (C + 1) * (C + 1) * C + 1 := by ring
  linarith

theorem c3val_lt (W : Nat) (t : Comba3) (h0 : t.r0 < 2 ^ W)
    (h1 : t.r1 < 2 ^ W) (h2 : t.r2 < 2 ^ W) :
    c3val W t < 2 ^ W * 2 ^ W * 2 ^ W := by
  unfold c3val
  exact triple_lt (2 ^ W) t.r0 t.r1 t.r2 h0 h1 h2

theorem combaStepSqr_exact (W : Nat) (hW : 1 ≤ W) (t : Comba3) (a b : Nat)
    (ha : a < 2 ^ W) (hb : b < 2 ^ W)
    (h0 : t.r0 < 2 ^ W) (h1 : t.r1 < 2 ^ W) (h2 : t.r2 < 2 ^ W)
    (hbound : c3val W t + 2 * (a * b) < 2 ^ W * 2 ^ W * 2 ^ W) :
    c3val W (combaStepSqr W t a b) = c3val W t + 2 * (a * b) := by
  obtain ⟨K, hK⟩ := combaStepSqr_val W hW t a b ha hb h0 h1 h2
  rcases Nat.eq_zero_or_pos K with h | h
  · subst h
    simpa using hK
  · exfalso
    have h1' : 2 ^ W * 2 ^ W * 2 ^ W ≤ K * (2 ^ W * 2 ^ W * 2 ^ W) :=
      Nat.le_mul_of_pos_left _ h
    have h2' : K * (2 ^ W * 2 ^ W * 2 ^ W) ≤ c3val W t + 2 * (a * b) := by
      calc K * (2 ^ W * 2 ^ W * 2 ^ W) ≤
          c3val W (combaStepSqr W t a b) + K * (2 ^ W * 2 ^ W * 2 ^ W) :=
            Nat.le_add_left _ _
        _ = c3val W t + 2 * (a * b) := hK
    exact absurd hbound (not_lt.mpr (le_trans h1' h2'))

theorem combaFinal_exact (W : Nat) (hW : 1 ≤ W) (t : Comba3) (a : Nat)
    (ha : a < 2 ^ W)
    (h0 : t.r0 < 2 ^ W) (h1 : t.r1 < 2 ^ W) (h2 : t.r2 < 2 ^ W)
    (hbound : c3val W t + a * a < 2 ^ W * 2 ^ W * 2 ^ W) :
    c3val W (combaFinal W t a) = c3val W t + a * a := by
  obtain ⟨K, hK⟩ := combaFinal_val W hW t a ha h0 h1 h2
  rcases Nat.eq_zero_or_pos K with h | h
  · subst h
    simpa using hK
  · exfalso
    have h1' : 2 ^ W * 2 ^ W * 2 ^ W ≤ K * (2 ^ W * 2 ^ W * 2 ^ W) :=
      Nat.le_mul_of_pos_left _ h
    have h2' : K * (2 ^ W * 2 ^ W * 2 ^ W) ≤ c3val W t + a * a := by
      calc K * (2 ^ W * 2 ^ W * 2 ^ W) ≤
          c3val W (combaFinal W t a) + K * (2 ^ W * 2 ^ W * 2 ^ W) :=
            Nat.le_add_left _ _
        _ = c3val W t + a * a := hK
    exact absurd hbound (not_lt.mpr (le_trans h1' h2'))

theorem combaLoop_lt (W : Nat) (a : Nat → Nat) :
    ∀ (n p q : Nat) (t : Comba3), t.r0 < 2 ^ W → t.r1 < 2 ^ W → t.r2 < 2 ^ W →
      (combaLoop W a n p q t).r0 < 2 ^ W ∧ (combaLoop W a n p q t).r1 < 2 ^ W ∧
        (combaLoop W a n p q t).r2 < 2 ^ W
  | 0, _, _, _, h0, h1, h2 => ⟨h0, h1, h2⟩
  | n + 1, p, q, t, _, _, _ => by
    have hs := combaStepSqr_lt W t (a p) (a q)
    exact combaLoop_lt W a n (p + 1) (q - 1) _ hs.1 hs.2.1 hs.2.2

theorem combaLoop_val (W : Nat) (hW : 1 ≤ W) (a : Nat → Nat) :
    ∀ (n p q : Nat) (t : Comba3),
      (∀ j < n, a (p + j) < 2 ^ W ∧ a (q - j) < 2 ^ W) →
      t.r0 < 2 ^ W → t.r1 < 2 ^ W → t.r2 < 2 ^ W →
      c3val W t + ∑ j ∈ Finset.range n, 2 * (a (p + j) * a (q - j)) <
        2 ^ W * 2 ^ W * 2 ^ W →
      c3val W (combaLoop W a n p q t) =
        c3val W t + ∑ j ∈ Finset.range n, 2 * (a (p + j) * a (q - j))
  | 0, p, q, t, _, _, _, _, _ => by simp [combaLoop]
  | n + 1, p, q, t, hd, h0, h1, h2, hbound => by
    have hsum : ∑ j ∈ Finset.range (n + 1), 2 * (a (p + j) * a (q - j)) =
        (∑ j ∈ Finset.range n, 2 * (a ((p + 1) + j) * a ((q - 1) - j))) +
          2 * (a p * a q) := by
      rw [Finset.sum_range_succ']
      have e : (∑ j ∈ Finset.range n, 2 * (a (p + (j + 1)) * a (q - (j + 1)))) =
          ∑ j ∈ Finset.range n, 2 * (a ((p + 1) + j) * a ((q - 1) - j)) :=
        Finset.sum_congr rfl (fun j _ => by
          rw [show p + (j + 1) = p + 1 + j from by omega,
            show q - (j + 1) = q - 1 - j from by omega])
      rw [e]
      simp
    have hd0 := hd 0 (by omega)
    simp only [Nat.add_zero, Nat.sub_zero] at hd0
    have hstep : c3val W (combaStepSqr W t (a p) (a q)) =
        c3val W t + 2 * (a p * a q) := by
      apply combaStepSqr_exact W hW t (a p) (a q) hd0.1 hd0.2 h0 h1 h2
      have : 2 * (a p * a q) ≤
          ∑ j ∈ Finset.range (n + 1), 2 * (a (p + j) * a (q - j)) := by
        rw [hsum]
        omega
      omega
    have hlt := combaStepSqr_lt W t (a p) (a q)
    have hdg : ∀ j < n, a ((p + 1) + j) < 2 ^ W ∧ a ((q - 1) - j) < 2 ^ W := by
      intro j hj
      have := hd (j + 1) (by omega)
      rwa [show p + (j + 1) = p + 1 + j from by omega,
        show q - (j + 1) = q - 1 - j from by omega] at this
    have hbound2 : c3val W (combaStepSqr W t (a p) (a q)) +
        ∑ j ∈ Finset.range n, 2 * (a ((p + 1) + j) * a ((q - 1) - j)) <
        2 ^ W * 2 ^ W * 2 ^ W := by
      rw [hstep]
      rw [hsum] at hbound
      omega
    have ih := combaLoop_val W hW a n (p + 1) (q - 1)
      (combaStepSqr W t (a p) (a q)) hdg hlt.1 hlt.2.1 hlt.2.2 hbound2
    show c3val W (combaLoop W a n (p + 1) (q - 1) (combaStepSqr W t (a p) (a q))) = _
    rw [ih, hstep, hsum]
    omega

/-- The numeric contribution of one Comba column: the doubled pair
products plus the optional diagonal square. -/
def colAdd (a : Nat → Nat) (p q n : Nat) (dg : Bool) : Nat :=
  (∑ j ∈ Finset.range n, 2 * (a (p + j) * a (q - j))) +
    (if dg then a (p + n) * a (p + n) else 0)

theorem combaColumn_lt (W : Nat) (a : Nat → Nat) (t : Comba3) (p q n : Nat)
    (dg : Bool) (h0 : t.r0 < 2 ^ W) (h1 : t.r1 < 2 ^ W) (h2 : t.r2 < 2 ^ W) :
    (combaColumn W a t p q n dg).r0 < 2 ^ W ∧
      (combaColumn W a t p q n dg).r1 < 2 ^ W ∧
      (combaColumn W a t p q n dg).r2 < 2 ^ W := by
  unfold combaColumn
  rcases dg
  · exact combaLoop_lt W a n p q t h0 h1 h2
  · exact combaFinal_lt W _ _

theorem combaColumn_val (W : Nat) (hW : 1 ≤ W) (a : Nat → Nat) (t : Comba3)
    (p q n : Nat) (dg : Bool)
    (hd : ∀ j < n, a (p + j) < 2 ^ W ∧ a (q - j) < 2 ^ W)
    (hdg : dg = true → a (p + n) < 2 ^ W)
    (h0 : t.r0 < 2 ^ W) (h1 : t.r1 < 2 ^ W) (h2 : t.r2 < 2 ^ W)
    (hbound : c3val W t + colAdd a p q n dg < 2 ^ W * 2 ^ W * 2 ^ W) :
    c3val W (combaColumn W a t p q n dg) = c3val W t + colAdd a p q n dg := by
  have hdiag := hdg
  unfold combaColumn colAdd
  unfold colAdd at hbound
  rcases dg
  · simp only [Bool.false_eq_true, if_false] at hbound ⊢
    have := combaLoop_val W hW a n p q t hd h0 h1 h2 (by omega)
    omega
  · simp only [reduceIte] at hbound ⊢
    have hlv : c3val W (combaLoop W a n p q t) =
        c3val W t + ∑ j ∈ Finset.range n, 2 * (a (p + j) * a (q - j)) :=
      combaLoop_val W hW a n p q t hd h0 h1 h2 (by omega)
    have hlt := combaLoop_lt W a n p q t h0 h1 h2
    rw [combaFinal_exact W hW _ _ (hdiag rfl) hlt.1 hlt.2.1 hlt.2.2 (by omega), hlv]
    omega

theorem passBound (B S x y : Nat) (hB : 2 ≤ B) (hS : S ≤ B)
    (hx : x ≤ S * (B - 1)) (hy : y ≤ S * (B - 1) * (B - 1)) :
    x + y < B * B * B := by
  obtain ⟨C, rfl⟩ : ∃ C, B = C + 1 := ⟨B - 1, by omega⟩
  simp only [Nat.add_sub_cancel] at hx hy
  have h1 : S * C ≤ (C + 1) * C := Nat.mul_le_mul_right _ hS
  have h2 : S * C * C ≤ (C + 1) * C * C := Nat.mul_le_mul_right _ h1
  have e : (C + 1) * ((C + 1) * (C + 1)) =
      (C + 1) * C + (C + 1) * C * C + (C * C + 2 * C + 1) := by ring
  have e2 : (C + 1) * (C + 1) * (C + 1) = (C + 1) * ((C + 1) * (C + 1)) := by
    ring
  linarith

theorem carryBound (B S r v : Nat)
    (h : r + B * v ≤ S * (B - 1) + S * (B - 1) * (B - 1)) (hB : 1 ≤ B) :
    v ≤ S * (B - 1) := by
  obtain ⟨C, hC⟩ : ∃ C, B = C + 1 := ⟨B - 1, by omega⟩
  subst hC
  simp only [Nat.add_sub_cancel] at h ⊢
  have e : S * C + S * C * C = (C + 1) * (S * C) := by ring
  have h2 : (C + 1) * v ≤ (C + 1) * (S * C) := by omega
  exact Nat.le_of_mul_le_mul_left h2 (by omega)

theorem c3val_roll (W : Nat) (t : Comba3) :
    c3val W t = t.r0 + 2 ^ W * c3val W ⟨t.r1, t.r2, 0⟩ := by
  unfold c3val
  ring

theorem sqrnPass_val (W : Nat) (hW : 1 ≤ W) (a : Nat → Nat)
    (cp cq cn : Nat → Nat) (cd : Nat → Bool) (S : Nat) (hS : S ≤ 2 ^ W) :
    ∀ (rem i : Nat) (t : Comba3),
      t.r0 < 2 ^ W → t.r1 < 2 ^ W → t.r2 < 2 ^ W →
      c3val W t ≤ S * (2 ^ W - 1) →
      (∀ c, i ≤ c → c < i + rem →
        (∀ j < cn c, a (cp c + j) < 2 ^ W ∧ a (cq c - j) < 2 ^ W) ∧
        (cd c = true → a (cp c + cn c) < 2 ^ W) ∧
        colAdd a (cp c) (cq c) (cn c) (cd c) ≤ S * (2 ^ W - 1) * (2 ^ W - 1)) →
      (sqrnPass W a cp cq cn cd rem i t).1.length = rem ∧
      listVal W (sqrnPass W a cp cq cn cd rem i t).1 +
        c3val W (sqrnPass W a cp cq cn cd rem i t).2 * (2 ^ W) ^ rem =
        c3val W t + ∑ c ∈ Finset.range rem,
          colAdd a (cp (i + c)) (cq (i + c)) (cn (i + c)) (cd (i + c)) *
            (2 ^ W) ^ c ∧
      (sqrnPass W a cp cq cn cd rem i t).2.r0 < 2 ^ W ∧
      (sqrnPass W a cp cq cn cd rem i t).2.r1 < 2 ^ W ∧
      (sqrnPass W a cp cq cn cd rem i t).2.r2 < 2 ^ W ∧
      c3val W (sqrnPass W a cp cq cn cd rem i t).2 ≤ S * (2 ^ W - 1)
  | 0, i, t => by
    intro h0 h1 h2 htv _
    simp only [sqrnPass]
    refine ⟨rfl, ?_, h0, h1, h2, htv⟩
    simp [listVal]
  | rem + 1, i, t => by
    intro h0 h1 h2 htv hcols
    have hB2 : 2 ≤ 2 ^ W := by
      calc 2 = 2 ^ 1 := by norm_num
      _ ≤ 2 ^ W := Nat.pow_le_pow_right (by omega) hW
    obtain ⟨hdig, hdg, hca⟩ := hcols i (le_refl i) (by omega)
    have hcb : c3val W t + colAdd a (cp i) (cq i) (cn i) (cd i) <
        2 ^ W * 2 ^ W * 2 ^ W :=
      passBound (2 ^ W) S (c3val W t) _ hB2 hS htv hca
    have hcv := combaColumn_val W hW a t (cp i) (cq i) (cn i) (cd i)
      hdig hdg h0 h1 h2 hcb
    have hclt := combaColumn_lt W a t (cp i) (cq i) (cn i) (cd i) h0 h1 h2
    set t1 := combaColumn W a t (cp i) (cq i) (cn i) (cd i) with ht1
    have hroll := c3val_roll W t1
    have htn : c3val W (⟨t1.r1, t1.r2, 0⟩ : Comba3) ≤ S * (2 ^ W - 1) := by
      apply carryBound (2 ^ W) S t1.r0 _ _ (by omega)
      rw [← hroll, hcv]
      omega
    have ih := sqrnPass_val W hW a cp cq cn cd S hS rem (i + 1)
      ⟨t1.r1, t1.r2, 0⟩ hclt.2.1 hclt.2.2 (by
        show (0 : Nat) < 2 ^ W
        omega) htn
      (fun c hc1 hc2 => hcols c (by omega) (by omega))
    have hpass : sqrnPass W a cp cq cn cd (rem + 1) i t =
        (t1.r0 :: (sqrnPass W a cp cq cn cd rem (i + 1) ⟨t1.r1, t1.r2, 0⟩).1,
         (sqrnPass W a cp cq cn cd rem (i + 1) ⟨t1.r1, t1.r2, 0⟩).2) := by
      simp only [sqrnPass, ht1]
    rw [hpass]
    obtain ⟨ihlen, ihval, ihr0, ihr1, ihr2, ihbd⟩ := ih
    set P := sqrnPass W a cp cq cn cd rem (i + 1) ⟨t1.r1, t1.r2, 0⟩ with hPdef
    refine ⟨by simp [ihlen], ?_, ihr0, ihr1, ihr2, ihbd⟩
    have hsum : ∑ c ∈ Finset.range (rem + 1),
        colAdd a (cp (i + c)) (cq (i + c)) (cn (i + c)) (cd (i + c)) *
          (2 ^ W) ^ c =
        (∑ c ∈ Finset.range rem,
          colAdd a (cp (i + 1 + c)) (cq (i + 1 + c)) (cn (i + 1 + c))
            (cd (i + 1 + c)) * (2 ^ W) ^ (c + 1)) +
          colAdd a (cp i) (cq i) (cn i) (cd i) := by
      rw [Finset.sum_range_succ']
      have e : ∀ c ∈ Finset.range rem,
          colAdd a (cp (i + (c + 1))) (cq (i + (c + 1))) (cn (i + (c + 1)))
            (cd (i + (c + 1))) * (2 ^ W) ^ (c + 1) =
          colAdd a (cp (i + 1 + c)) (cq (i + 1 + c)) (cn (i + 1 + c))
            (cd (i + 1 + c)) * (2 ^ W) ^ (c + 1) := by
        intro c _
        rw [show i + (c + 1) = i + 1 + c from by omega]
      rw [Finset.sum_congr rfl e]
      simp
    show listVal W (t1.r0 :: P.1) + c3val W P.2 * (2 ^ W) ^ (rem + 1) = _
    rw [hsum]
    show t1.r0 + 2 ^ W * listVal W P.1 + c3val W P.2 * (2 ^ W) ^ (rem + 1) = _
    have hdist : 2 ^ W * ∑ c ∈ Finset.range rem,
        colAdd a (cp (i + 1 + c)) (cq (i + 1 + c)) (cn (i + 1 + c))
          (cd (i + 1 + c)) * (2 ^ W) ^ c =
        ∑ c ∈ Finset.range rem,
          colAdd a (cp (i + 1 + c)) (cq (i + 1 + c)) (cn (i + 1 + c))
            (cd (i + 1 + c)) * (2 ^ W) ^ (c + 1) := by
      rw [Finset.mul_sum]
      refine Finset.sum_congr rfl (fun c _ => ?_)
      rw [pow_succ]
      ring
    have hmul2 : 2 ^ W * listVal W P.1 +
        2 ^ W * (c3val W P.2 * (2 ^ W) ^ rem) =
        2 ^ W * c3val W (⟨t1.r1, t1.r2, 0⟩ : Comba3) +
          2 ^ W * ∑ c ∈ Finset.range rem,
            colAdd a (cp (i + 1 + c)) (cq (i + 1 + c)) (cn (i + 1 + c))
              (cd (i + 1 + c)) * (2 ^ W) ^ c := by
      rw [← Nat.mul_add, ihval, Nat.mul_add]
    have hassoc : c3val W P.2 * (2 ^ W) ^ (rem + 1) =
        2 ^ W * (c3val W P.2 * (2 ^ W) ^ rem) := by
      rw [pow_succ]
      ring
    rw [hdist] at hmul2
    omega

/-- Symmetric interval convolution: the full column sum over an interval
equals twice the half-length pair sum plus the middle diagonal square
when the length is odd. -/
theorem intervalConv (a : Nat → Nat) : ∀ (m lo : Nat),
    ∑ k ∈ Finset.range (m + 1), a (lo + k) * a (lo + m - k) =
      2 * ∑ k ∈ Finset.range ((m + 1) / 2), a (lo + k) * a (lo + m - k) +
        (if m % 2 = 0 then a (lo + m / 2) * a (lo + m / 2) else 0)
  | 0, lo => by simp
  | 1, lo => by
    simp [Finset.sum_range_succ]
    ring
  | m + 2, lo => by
    have ih := intervalConv a m (lo + 1)
    rw [Finset.sum_range_succ']
    rw [Finset.sum_range_succ]
    have e1 : ∀ k ∈ Finset.range (m + 1),
        a (lo + (k + 1)) * a (lo + (m + 2) - (k + 1)) =
        a (lo + 1 + k) * a (lo + 1 + m - k) := by
      intro k _
      rw [show lo + (k + 1) = lo + 1 + k from by omega,
        show lo + (m + 2) - (k + 1) = lo + 1 + m - k from by omega]
    rw [Finset.sum_congr rfl e1, ih]
    rw [show (m + 2 + 1) / 2 = (m + 1) / 2 + 1 from by omega]
    rw [Finset.sum_range_succ']
    have e2 : ∀ k ∈ Finset.range ((m + 1) / 2),
        a (lo + (k + 1)) * a (lo + (m + 2) - (k + 1)) =
        a (lo + 1 + k) * a (lo + 1 + m - k) := by
      intro k _
      rw [show lo + (k + 1) = lo + 1 + k from by omega,
        show lo + (m + 2) - (k + 1) = lo + 1 + m - k from by omega]
    rw [Finset.sum_congr rfl e2]
    rw [show (m + 2) % 2 = m % 2 from by omega]
    rw [show lo + (m + 2) / 2 = lo + 1 + m / 2 from by omega]
    rw [show lo + (m + 1 + 1) = lo + 1 + m + 1 from by omega,
      show lo + 1 + m + 1 - (m + 1 + 1) = lo from by omega,
      show lo + 0 = lo from by omega,
      show lo + 1 + m + 1 - 0 = lo + 1 + m + 1 from by omega]
    ring

/-- The full convolution coefficient of column `c` for an `s`-digit
operand. -/
def colsumFull (a : Nat → Nat) (s c : Nat) : Nat :=
  ∑ j ∈ Finset.range (c + 1), if j < s ∧ c - j < s then a j * a (c - j) else 0

theorem colsum_pass1 (a : Nat → Nat) (s c : Nat) (hc : c < s) :
    colsumFull a s c = colAdd a 0 c ((c + 1) / 2) (decide (c % 2 = 0)) := by
  unfold colsumFull colAdd
  have e1 : ∀ j ∈ Finset.range (c + 1),
      (if j < s ∧ c - j < s then a j * a (c - j) else 0) =
      a (0 + j) * a (0 + c - j) := by
    intro j hj
    rw [Finset.mem_range] at hj
    rw [if_pos (by omega : j < s ∧ c - j < s)]
    rw [show 0 + j = j from by omega, show 0 + c - j = c - j from by omega]
  rw [Finset.sum_congr rfl e1, intervalConv a c 0]
  have e2 : (∑ j ∈ Finset.range ((c + 1) / 2), 2 * (a (0 + j) * a (c - j))) =
      2 * ∑ k ∈ Finset.range ((c + 1) / 2), a (0 + k) * a (0 + c - k) := by
    rw [Finset.mul_sum]
    refine Finset.sum_congr rfl (fun k _ => ?_)
    rw [show 0 + c - k = c - k from by omega]
  rw [e2]
  by_cases hpar : c % 2 = 0
  · rw [if_pos hpar]
    have hdec : (decide (c % 2 = 0)) = true := by simp [hpar]
    rw [hdec, if_pos rfl]
    rw [show 0 + (c + 1) / 2 = 0 + c / 2 from by omega]
  · rw [if_neg hpar]
    have hdec : (decide (c % 2 = 0)) = false := by simp [hpar]
    rw [hdec]
    simp

theorem colsum_pass2 (a : Nat → Nat) (s i : Nat) (hi : i < s) :
    colsumFull a s (s + i) =
      colAdd a (i + 1) (s - 1) ((s - 1 - i) / 2) (decide ((s - i) % 2 = 0)) := by
  unfold colsumFull colAdd
  have hfe : (Finset.range (s + i + 1)).filter
      (fun j => j < s ∧ s + i - j < s) = Finset.Ico (i + 1) s := by
    ext j
    simp only [Finset.mem_filter, Finset.mem_range, Finset.mem_Ico]
    omega
  have e0 : ∑ j ∈ Finset.range (s + i + 1),
      (if j < s ∧ s + i - j < s then a j * a (s + i - j) else 0) =
      ∑ j ∈ Finset.Ico (i + 1) s, a j * a (s + i - j) := by
    rw [← Finset.sum_filter, hfe]
  rw [e0, Finset.sum_Ico_eq_sum_range]
  rcases Nat.lt_or_ge i (s - 1) with hlt | hge
  · rw [show s - (i + 1) = (s - 2 - i) + 1 from by omega]
    have e1 : ∀ k ∈ Finset.range (s - 2 - i + 1),
        a (i + 1 + k) * a (s + i - (i + 1 + k)) =
        a (i + 1 + k) * a (i + 1 + (s - 2 - i) - k) := by
      intro k hk
      rw [Finset.mem_range] at hk
      rw [show s + i - (i + 1 + k) = i + 1 + (s - 2 - i) - k from by omega]
    rw [Finset.sum_congr rfl e1, intervalConv a (s - 2 - i) (i + 1)]
    have e2 : (∑ j ∈ Finset.range ((s - 1 - i) / 2),
        2 * (a (i + 1 + j) * a (s - 1 - j))) =
        2 * ∑ k ∈ Finset.range ((s - 2 - i + 1) / 2),
          a (i + 1 + k) * a (i + 1 + (s - 2 - i) - k) := by
      rw [Finset.mul_sum, show (s - 2 - i + 1) / 2 = (s - 1 - i) / 2 from by omega]
      refine Finset.sum_congr rfl (fun k _ => ?_)
      rw [show i + 1 + (s - 2 - i) - k = s - 1 - k from by omega]
    rw [e2]
    by_cases hpar : (s - i) % 2 = 0
    · have hpar2 : (s - 2 - i) % 2 = 0 := by omega
      rw [if_pos hpar2]
      have hdec : (decide ((s - i) % 2 = 0)) = true := by simp [hpar]
      rw [hdec, if_pos rfl]
      rw [show i + 1 + (s - 1 - i) / 2 = i + 1 + (s - 2 - i) / 2 from by omega]
    · have hpar2 : ¬ (s - 2 - i) % 2 = 0 := by omega
      rw [if_neg hpar2]
      have hdec : (decide ((s - i) % 2 = 0)) = false := by simp [hpar]
      rw [hdec]
      simp
  · have hieq : i = s - 1 := by omega
    rw [show s - (i + 1) = 0 from by omega]
    rw [show s - 1 - i = 0 from by omega]
    have hdec : (decide ((s - i) % 2 = 0)) = false := by
      have : s - i = 1 := by omega
      simp [this]
    rw [hdec]
    simp

/-- Expansion of the square of a base-`B` digit value into its column
convolution coefficients. -/
theorem sq_expand (B s : Nat) (a : Nat → Nat) :
    (∑ i ∈ Finset.range s, a i * B ^ i) * (∑ i ∈ Finset.range s, a i * B ^ i) =
      ∑ c ∈ Finset.range (2 * s), colsumFull a s c * B ^ c := by
  unfold colsumFull
  have hrhs : ∑ c ∈ Finset.range (2 * s),
      (∑ j ∈ Finset.range (c + 1),
        if j < s ∧ c - j < s then a j * a (c - j) else 0) * B ^ c =
      ∑ c ∈ Finset.range (2 * s), ∑ j ∈ Finset.range (c + 1),
        (if j < s ∧ c - j < s then a j * a (c - j) * B ^ (j + (c - j)) else 0) := by
    refine Finset.sum_congr rfl (fun c _ => ?_)
    rw [Finset.sum_mul]
    refine Finset.sum_congr rfl (fun j hj => ?_)
    rw [Finset.mem_range] at hj
    rw [ite_mul, zero_mul]
    rw [show j + (c - j) = c from by omega]
  rw [hrhs]
  have hflip := Finset.sum_range_diag_flip (2 * s)
    (fun x y => if x < s ∧ y < s then a x * a y * B ^ (x + y) else 0)
  rw [hflip]
  have houter : ∑ m ∈ Finset.range (2 * s), ∑ k ∈ Finset.range (2 * s - m),
      (if m < s ∧ k < s then a m * a k * B ^ (m + k) else 0) =
      ∑ m ∈ Finset.range s, ∑ k ∈ Finset.range (2 * s - m),
        (if m < s ∧ k < s then a m * a k * B ^ (m + k) else 0) := by
    symm
    apply Finset.sum_subset
    · apply Finset.range_subset.mpr
      omega
    · intro m _ hm
      rw [Finset.mem_range] at hm
      push_neg at hm
      refine Finset.sum_eq_zero (fun k _ => ?_)
      rw [if_neg (by omega)]
  rw [houter]
  have hinner : ∀ m ∈ Finset.range s,
      (∑ k ∈ Finset.range (2 * s - m),
        if m < s ∧ k < s then a m * a k * B ^ (m + k) else 0) =
      ∑ k ∈ Finset.range s, a m * a k * B ^ (m + k) := by
    intro m hm
    rw [Finset.mem_range] at hm
    have hsub : ∑ k ∈ Finset.range s,
        (if m < s ∧ k < s then a m * a k * B ^ (m + k) else 0) =
        ∑ k ∈ Finset.range (2 * s - m),
          (if m < s ∧ k < s then a m * a k * B ^ (m + k) else 0) := by
      apply Finset.sum_subset
      · apply Finset.range_subset.mpr
        omega
      · intro k _ hk
        rw [Finset.mem_range] at hk
        push_neg at hk
        rw [if_neg (by omega)]
    rw [← hsub]
    refine Finset.sum_congr rfl (fun k hk => ?_)
    rw [Finset.mem_range] at hk
    rw [if_pos ⟨hm, hk⟩]
  rw [Finset.sum_congr rfl hinner]
  rw [Finset.sum_mul_sum]
  refine Finset.sum_congr rfl (fun m _ => ?_)
  refine Finset.sum_congr rfl (fun k _ => ?_)
  rw [pow_add]
  ring

/-- Splitting a digit list concatenation into its base-`B` value. -/
theorem listVal_append (W : Nat) :
    ∀ (l1 l2 : List Nat),
      listVal W (l1 ++ l2) = listVal W l1 + (2 ^ W) ^ l1.length * listVal W l2
  | [], l2 => by simp [listVal]
  | d :: ds, l2 => by
    show d + 2 ^ W * listVal W (ds ++ l2) =
      (d + 2 ^ W * listVal W ds) + (2 ^ W) ^ (ds.length + 1) * listVal W l2
    rw [listVal_append W ds l2, pow_succ]
    ring

/-- A digit value with digits below the base is below `B ^ s`. -/
theorem digVal_lt (B : Nat) (hB : 1 ≤ B) (a : Nat → Nat) :
    ∀ (s : Nat), (∀ i < s, a i < B) →
      (∑ i ∈ Finset.range s, a i * B ^ i) + 1 ≤ B ^ s
  | 0, _ => by simp
  | s + 1, ha => by
    rw [Finset.sum_range_succ]
    have ih := digVal_lt B hB a s (fun i hi => ha i (by omega))
    have has : a s * B ^ s ≤ (B - 1) * B ^ s :=
      Nat.mul_le_mul_right _ (by have := ha s (by omega); omega)
    have e : B ^ (s + 1) = B ^ s + (B - 1) * B ^ s := by
      obtain ⟨C, hC⟩ : ∃ C, B = C + 1 := ⟨B - 1, by omega⟩
      subst hC
      simp only [Nat.add_sub_cancel]
      rw [pow_succ]
      ring
    omega

theorem colAdd_le (B : Nat) (a : Nat → Nat) (p q n : Nat) (dg : Bool) (S : Nat)
    (hd : ∀ j < n, a (p + j) < B ∧ a (q - j) < B)
    (hdg : dg = true → a (p + n) < B)
    (hcount : 2 * n + (if dg then 1 else 0) ≤ S) :
    colAdd a p q n dg ≤ S * (B - 1) * (B - 1) := by
  unfold colAdd
  have hterm : ∀ j ∈ Finset.range n,
      2 * (a (p + j) * a (q - j)) ≤ 2 * ((B - 1) * (B - 1)) := by
    intro j hj
    rw [Finset.mem_range] at hj
    obtain ⟨h1, h2⟩ := hd j hj
    exact Nat.mul_le_mul_left 2 (Nat.mul_le_mul (by omega) (by omega))
  have hsum : (∑ j ∈ Finset.range n, 2 * (a (p + j) * a (q - j))) ≤
      n * (2 * ((B - 1) * (B - 1))) := by
    calc (∑ j ∈ Finset.range n, 2 * (a (p + j) * a (q - j))) ≤
        ∑ _j ∈ Finset.range n, 2 * ((B - 1) * (B - 1)) :=
          Finset.sum_le_sum hterm
      _ = n * (2 * ((B - 1) * (B - 1))) := by
          rw [Finset.sum_const, Finset.card_range, smul_eq_mul]
  have hdiag : (if dg then a (p + n) * a (p + n) else 0) ≤
      (if dg then 1 else 0) * ((B - 1) * (B - 1)) := by
    rcases dg
    · simp
    · simp only [if_true, one_mul]
      have := hdg rfl
      exact Nat.mul_le_mul (by omega) (by omega)
  have htot : colAdd a p q n dg ≤ (2 * n + (if dg then 1 else 0)) *
      ((B - 1) * (B - 1)) := by
    unfold colAdd
    have e : (2 * n + (if dg then 1 else 0)) * ((B - 1) * (B - 1)) =
        n * (2 * ((B - 1) * (B - 1))) + (if dg then 1 else 0) * ((B - 1) * (B - 1)) := by
      ring
    omega
  calc colAdd a p q n dg ≤ (2 * n + (if dg then 1 else 0)) * ((B - 1) * (B - 1)) :=
      htot
    _ ≤ S * ((B - 1) * (B - 1)) := Nat.mul_le_mul_right _ hcount
    _ = S * (B - 1) * (B - 1) := by ring

/-- Claim C1: for every `size` up to the largest value the word size
supports and every digit sequence `a` of that length (including all-zero
and all-ones), `bn_sqrn_low` fills `2 * size` output digits whose
little-endian base-`2 ^ W` value is exactly the square of the value of
`a`: no digit is dropped and all final carries are captured. -/
theorem claim_C1 (W size : Nat) (a : Nat → Nat) (hW : 1 ≤ W)
    (hsz : size ≤ 2 ^ W) (ha : ∀ i < size, a i < 2 ^ W) :
    (bn_sqrn_low W a size).length = 2 * size ∧
    listVal W (bn_sqrn_low W a size) =
      (∑ i ∈ Finset.range size, a i * (2 ^ W) ^ i) ^ 2 := by
  have hB2 : 2 ≤ 2 ^ W := by
    calc 2 = 2 ^ 1 := by norm_num
    _ ≤ 2 ^ W := Nat.pow_le_pow_right (by omega) hW
  have hzlt : (0 : Nat) < 2 ^ W := by omega
  have hz3 : c3val W (⟨0, 0, 0⟩ : Comba3) = 0 := by simp [c3val]
  -- the per-column hypotheses of the first pass
  have hcols1 : ∀ c, 0 ≤ c → c < 0 + size →
      (∀ j < (c + 1) / 2, a (0 + j) < 2 ^ W ∧ a (c - j) < 2 ^ W) ∧
      ((decide (c % 2 = 0)) = true → a (0 + (c + 1) / 2) < 2 ^ W) ∧
      colAdd a 0 c ((c + 1) / 2) (decide (c % 2 = 0)) ≤
        size * (2 ^ W - 1) * (2 ^ W - 1) := by
    intro c _ hc
    have hc' : c < size := by omega
    have hd : ∀ j < (c + 1) / 2, a (0 + j) < 2 ^ W ∧ a (c - j) < 2 ^ W := by
      intro j hj
      exact ⟨ha (0 + j) (by omega), ha (c - j) (by omega)⟩
    have hdg : (decide (c % 2 = 0)) = true → a (0 + (c + 1) / 2) < 2 ^ W := by
      intro h
      have := of_decide_eq_true h
      exact ha (0 + (c + 1) / 2) (by omega)
    refine ⟨hd, hdg, colAdd_le (2 ^ W) a 0 c ((c + 1) / 2) _ size hd hdg ?_⟩
    by_cases h : c % 2 = 0 <;> simp [h] <;> omega
  -- the per-column hypotheses of the second pass
  have hcols2 : ∀ c, 0 ≤ c → c < 0 + size →
      (∀ j < (size - 1 - c) / 2,
        a (c + 1 + j) < 2 ^ W ∧ a (size - 1 - j) < 2 ^ W) ∧
      ((decide ((size - c) % 2 = 0)) = true →
        a (c + 1 + (size - 1 - c) / 2) < 2 ^ W) ∧
      colAdd a (c + 1) (size - 1) ((size - 1 - c) / 2)
        (decide ((size - c) % 2 = 0)) ≤ size * (2 ^ W - 1) * (2 ^ W - 1) := by
    intro c _ hc
    have hc' : c < size := by omega
    have hd : ∀ j < (size - 1 - c) / 2,
        a (c + 1 + j) < 2 ^ W ∧ a (size - 1 - j) < 2 ^ W := by
      intro j hj
      exact ⟨ha (c + 1 + j) (by omega), ha (size - 1 - j) (by omega)⟩
    have hdg : (decide ((size - c) % 2 = 0)) = true →
        a (c + 1 + (size - 1 - c) / 2) < 2 ^ W := by
      intro h
      have := of_decide_eq_true h
      exact ha (c + 1 + (size - 1 - c) / 2) (by omega)
    refine ⟨hd, hdg,
      colAdd_le (2 ^ W) a (c + 1) (size - 1) ((size - 1 - c) / 2) _ size hd hdg ?_⟩
    by_cases h : (size - c) % 2 = 0 <;> simp [h] <;> omega
  obtain ⟨len1, val1, t1r0, t1r1, t1r2, t1bd⟩ :=
    sqrnPass_val W hW a (fun _ => 0) (fun i => i) (fun i => (i + 1) / 2)
      (fun i => decide (i % 2 = 0)) size hsz size 0 ⟨0, 0, 0⟩
      hzlt hzlt hzlt (by rw [hz3]; omega) hcols1
  obtain ⟨len2, val2, _, _, _, _⟩ :=
    sqrnPass_val W hW a (fun i => i + 1) (fun _ => size - 1)
      (fun i => (size - 1 - i) / 2) (fun i => decide ((size - i) % 2 = 0))
      size hsz size 0
      (sqrnPass W a (fun _ => 0) (fun i => i) (fun i => (i + 1) / 2)
        (fun i => decide (i % 2 = 0)) size 0 ⟨0, 0, 0⟩).2
      t1r0 t1r1 t1r2 t1bd hcols2
  set l1 := (sqrnPass W a (fun _ => 0) (fun i => i) (fun i => (i + 1) / 2)
    (fun i => decide (i % 2 = 0)) size 0 ⟨0, 0, 0⟩).1 with hl1
  set t1 := (sqrnPass W a (fun _ => 0) (fun i => i) (fun i => (i + 1) / 2)
    (fun i => decide (i % 2 = 0)) size 0 ⟨0, 0, 0⟩).2 with ht1
  set l2 := (sqrnPass W a (fun i => i + 1) (fun _ => size - 1)
    (fun i => (size - 1 - i) / 2) (fun i => decide ((size - i) % 2 = 0))
    size 0 t1).1 with hl2
  set t2 := (sqrnPass W a (fun i => i + 1) (fun _ => size - 1)
    (fun i => (size - 1 - i) / 2) (fun i => decide ((size - i) % 2 = 0))
    size 0 t1).2 with ht2
  have hout : bn_sqrn_low W a size = l1 ++ l2 := rfl
  rw [hout]
  have hlen : (l1 ++ l2).length = 2 * size := by
    rw [List.length_append, len1, len2]
    omega
  refine ⟨hlen, ?_⟩
  rw [hz3] at val1
  -- rewrite both column sums into full convolution coefficients
  have hsum1 : ∑ c ∈ Finset.range size,
      colAdd a 0 (0 + c) ((0 + c + 1) / 2) (decide ((0 + c) % 2 = 0)) *
        (2 ^ W) ^ c =
      ∑ c ∈ Finset.range size, colsumFull a size c * (2 ^ W) ^ c := by
    refine Finset.sum_congr rfl (fun c hc => ?_)
    rw [Finset.mem_range] at hc
    rw [show 0 + c = c from by omega]
    rw [← colsum_pass1 a size c hc]
  have hsum2 : ∑ c ∈ Finset.range size,
      colAdd a (0 + c + 1) (size - 1) ((size - 1 - (0 + c)) / 2)
        (decide ((size - (0 + c)) % 2 = 0)) * (2 ^ W) ^ c =
      ∑ c ∈ Finset.range size, colsumFull a size (size + c) * (2 ^ W) ^ c := by
    refine Finset.sum_congr rfl (fun c hc => ?_)
    rw [Finset.mem_range] at hc
    rw [show 0 + c = c from by omega]
    rw [← colsum_pass2 a size c hc]
  rw [hsum1] at val1
  rw [hsum2] at val2
  -- combine the two passes
  have happ : listVal W (l1 ++ l2) =
      listVal W l1 + (2 ^ W) ^ size * listVal W l2 := by
    rw [listVal_append, len1]
  have hval2X : (2 ^ W) ^ size * listVal W l2 +
      (2 ^ W) ^ size * (c3val W t2 * (2 ^ W) ^ size) =
      (2 ^ W) ^ size * c3val W t1 +
        (2 ^ W) ^ size * ∑ c ∈ Finset.range size,
          colsumFull a size (size + c) * (2 ^ W) ^ c := by
    rw [← Nat.mul_add, val2, Nat.mul_add]
  have hcomm : (2 ^ W) ^ size * c3val W t1 = c3val W t1 * (2 ^ W) ^ size := by
    ring
  have hassoc : (2 ^ W) ^ size * (c3val W t2 * (2 ^ W) ^ size) =
      c3val W t2 * ((2 ^ W) ^ size * (2 ^ W) ^ size) := by
    ring
  have htotal : listVal W (l1 ++ l2) +
      c3val W t2 * ((2 ^ W) ^ size * (2 ^ W) ^ size) =
      (∑ c ∈ Finset.range size, colsumFull a size c * (2 ^ W) ^ c) +
        (2 ^ W) ^ size * ∑ c ∈ Finset.range size,
          colsumFull a size (size + c) * (2 ^ W) ^ c := by
    rw [happ]
    omega
  -- the combined sum is the full 2*size column sum
  have hsplit : ∑ c ∈ Finset.range (2 * size),
      colsumFull a size c * (2 ^ W) ^ c =
      (∑ c ∈ Finset.range size, colsumFull a size c * (2 ^ W) ^ c) +
        (2 ^ W) ^ size * ∑ c ∈ Finset.range size,
          colsumFull a size (size + c) * (2 ^ W) ^ c := by
    rw [show 2 * size = size + size from by omega]
    rw [Finset.sum_range_add]
    congr 1
    rw [Finset.mul_sum]
    refine Finset.sum_congr rfl (fun c _ => ?_)
    rw [pow_add]
    ring
  rw [← hsplit] at htotal
  rw [← sq_expand (2 ^ W) size a] at htotal
  -- the square is below (2^W)^size * (2^W)^size, forcing the final carry to zero
  have hA := digVal_lt (2 ^ W) (by omega) a size ha
  have hAsq : (∑ i ∈ Finset.range size, a i * (2 ^ W) ^ i) *
      (∑ i ∈ Finset.range size, a i * (2 ^ W) ^ i) <
      (2 ^ W) ^ size * (2 ^ W) ^ size := by
    calc (∑ i ∈ Finset.range size, a i * (2 ^ W) ^ i) *
        (∑ i ∈ Finset.range size, a i * (2 ^ W) ^ i) <
        (∑ i ∈ Finset.range size, a i * (2 ^ W) ^ i + 1) *
          (∑ i ∈ Finset.range size, a i * (2 ^ W) ^ i + 1) := by
          have hpos : 0 < (∑ i ∈ Finset.range size, a i * (2 ^ W) ^ i) + 1 := by
            omega
          exact Nat.mul_lt_mul_of_le_of_lt (by omega) (by omega) hpos
      _ ≤ (2 ^ W) ^ size * (2 ^ W) ^ size := Nat.mul_le_mul hA hA
  have hzero : c3val W t2 = 0 := by
    rcases Nat.eq_zero_or_pos (c3val W t2) with h | h
    · exact h
    · exfalso
      have h1' : (2 ^ W) ^ size * (2 ^ W) ^ size ≤
          c3val W t2 * ((2 ^ W) ^ size * (2 ^ W) ^ size) :=
        Nat.le_mul_of_pos_left _ h
      omega
  rw [hzero] at htotal
  rw [pow_two]
  omega

/-- Witness for C1: the all-ones two-digit operand at `W = 2`
(value 15) squares to 225 across the four output digits. -/
theorem claim_C1_witness :
    (1 ≤ 2) ∧ (2 ≤ 2 ^ 2) ∧
    (bn_sqrn_low 2 (fun _ => 3) 2).length = 2 * 2 ∧
    listVal 2 (bn_sqrn_low 2 (fun _ => 3) 2) =
      (∑ i ∈ Finset.range 2, (fun _ => 3) i * (2 ^ 2) ^ i) ^ 2 := by
  have h := claim_C1 2 2 (fun _ => 3) (by decide) (by decide)
    (fun i _ => by show (3 : Nat) < 2 ^ 2; decide)
  exact ⟨by decide, by decide, h.1, h.2⟩

/-- Value identity for one iteration of the `bn_sqra_low` loop: the
written digit plus the outgoing carry word and delayed carry account
exactly for the incoming carries, the accumulator digit and the doubled
product; the delayed carry stays a single bit because at most one of the
four recorded overflow conditions can fire in a given iteration. -/
theorem sqraStepAux (B lo hi ci c0 c1 r0 r1 s0 s1 u0 u1 c0n c1n P : Nat)
    (hB : 4 ≤ B) (hlo : lo < B) (hhi : hi + 2 ≤ B)
    (hcrit : hi + 3 ≤ B ∨ lo ≤ 1)
    (hci : ci < B) (hc0 : c0 < B) (hc1 : c1 ≤ 1)
    (hP : B * hi + lo = P)
    (hr0 : r0 = (lo + lo) % B)
    (hr1 : r1 = (hi + hi + (if r0 < lo then 1 else 0)) % B)
    (hs0 : s0 = (r0 + c0) % B)
    (hs1 : s1 = (r1 + (if s0 < r0 then 1 else 0)) % B)
    (hu0 : u0 = (s0 + ci) % B)
    (hu1 : u1 = (s1 + (if u0 < s0 then 1 else 0)) % B)
    (hc0n : c0n = (u1 + c1) % B)
    (hc1n : c1n = if u1 < s1 ∨ s1 < r1 ∨ r1 < hi ∨ c0n < c1 then 1 else 0) :
    u0 + (c0n + c1n * B) * B = ci + c0 + c1 * B + 2 * P ∧
      c0n < B ∧ c1n ≤ 1 := by
  have hBpos : 0 < B := by omega
  have e1 : r0 + (if r0 < lo then 1 else 0) * B = lo + lo := by
    rw [hr0]
    exact wrap_eq B lo lo hlo hlo
  have hr0B : r0 < B := by rw [hr0]; exact Nat.mod_lt _ hBpos
  have e2 : r1 + (if r1 < hi then 1 else 0) * B =
      hi + (if r0 < lo then 1 else 0) + hi := by
    rw [hr1]
    rw [show hi + hi + (if r0 < lo then 1 else 0) =
      hi + (if r0 < lo then 1 else 0) + hi from by omega]
    exact wrap_eq B (hi + (if r0 < lo then 1 else 0)) hi (by split <;> omega)
      (by omega)
  have hr1B : r1 < B := by rw [hr1]; exact Nat.mod_lt _ hBpos
  have e3 : s0 + (if s0 < r0 then 1 else 0) * B = c0 + r0 := by
    rw [hs0]
    rw [show r0 + c0 = c0 + r0 from by omega]
    exact wrap_eq B c0 r0 hc0 hr0B
  have hs0B : s0 < B := by rw [hs0]; exact Nat.mod_lt _ hBpos
  have e4 : s1 + (if s1 < r1 then 1 else 0) * B =
      (if s0 < r0 then 1 else 0) + r1 := by
    rw [hs1]
    rw [show r1 + (if s0 < r0 then 1 else 0) =
      (if s0 < r0 then 1 else 0) + r1 from by omega]
    exact wrap_eq B (if s0 < r0 then 1 else 0) r1 (by split <;> omega) hr1B
  have hs1B : s1 < B := by rw [hs1]; exact Nat.mod_lt _ hBpos
  have e5 : u0 + (if u0 < s0 then 1 else 0) * B = ci + s0 := by
    rw [hu0]
    rw [show s0 + ci = ci + s0 from by omega]
    exact wrap_eq B ci s0 hci hs0B
  have e6 : u1 + (if u1 < s1 then 1 else 0) * B =
      (if u0 < s0 then 1 else 0) + s1 := by
    rw [hu1]
    rw [show s1 + (if u0 < s0 then 1 else 0) =
      (if u0 < s0 then 1 else 0) + s1 from by omega]
    exact wrap_eq B (if u0 < s0 then 1 else 0) s1 (by split <;> omega) hs1B
  have hu1B : u1 < B := by rw [hu1]; exact Nat.mod_lt _ hBpos
  have e7 : c0n + (if c0n < c1 then 1 else 0) * B = u1 + c1 := by
    rw [hc0n]
    exact wrap_eq B u1 c1 hu1B (by omega)
  have hc0nB : c0n < B := by rw [hc0n]; exact Nat.mod_lt _ hBpos
  have hsum : c1n = (if r1 < hi then 1 else 0) + (if s1 < r1 then 1 else 0) +
      (if u1 < s1 then 1 else 0) + (if c0n < c1 then 1 else 0) := by
    rw [hc1n]
    by_cases h1 : r0 < lo <;> by_cases h2 : s0 < r0 <;>
      by_cases h3 : u0 < s0 <;> by_cases h4 : r1 < hi <;>
      by_cases h5 : s1 < r1 <;> by_cases h6 : u1 < s1 <;>
      by_cases h7 : c0n < c1 <;>
      simp only [h1, h2, h3, h4, h5, h6, h7, if_true, if_false, ite_true,
        ite_false, eq_self_iff_true, or_true, true_or, false_or, or_false,
        one_mul, zero_mul, mul_one, mul_zero, add_zero, zero_add,
        not_false_iff, iff_true, iff_false] at e1 e2 e3 e4 e5 e6 e7 ⊢ <;>
      omega
  refine ⟨?_, hc0nB, by rw [hc1n]; split <;> omega⟩
  zify at e1 e2 e3 e4 e5 e6 e7 hsum hP ⊢
  linear_combination e5 + e3 + e1 + (B : Int) * e7 + (B : Int) * e6 +
    (B : Int) * e4 + (B : Int) * e2 + (B : Int) ^ 2 * hsum + 2 * hP

theorem sqraStepFn_spec (W : Nat) (hW : 2 ≤ W) (t ai ci c0 c1 : Nat)
    (ht : t < 2 ^ W) (hai : ai < 2 ^ W) (hci : ci < 2 ^ W)
    (hc0 : c0 < 2 ^ W) (hc1 : c1 ≤ 1) :
    (sqraStepFn W t ai ci c0 c1).1 +
      ((sqraStepFn W t ai ci c0 c1).2.1 +
        (sqraStepFn W t ai ci c0 c1).2.2 * 2 ^ W) * 2 ^ W =
      ci + c0 + c1 * 2 ^ W + 2 * (t * ai) ∧
    (sqraStepFn W t ai ci c0 c1).2.1 < 2 ^ W ∧
    (sqraStepFn W t ai ci c0 c1).2.2 ≤ 1 := by
  have hB4 : 4 ≤ 2 ^ W := by
    calc 4 = 2 ^ 2 := by norm_num
    _ ≤ 2 ^ W := Nat.pow_le_pow_right (by omega) hW
  obtain ⟨hdm, hlo, hhi, hcrit⟩ := prod_hi_lo (2 ^ W) t ai (by omega) ht hai
  have hcrit2 : t * ai / 2 ^ W + 3 ≤ 2 ^ W ∨ t * ai % 2 ^ W ≤ 1 := by
    rcases Nat.lt_or_ge (t * ai / 2 ^ W + 2) (2 ^ W) with h | h
    · left
      omega
    · right
      exact hcrit (by omega)
  exact sqraStepAux (2 ^ W) (t * ai % 2 ^ W) (t * ai / 2 ^ W) ci c0 c1
    _ _ _ _ _ _ _ _ (t * ai) hB4 hlo hhi hcrit2 hci hc0 hc1 hdm
    rfl rfl rfl rfl rfl rfl rfl rfl

theorem sqraRest_spec (W : Nat) (hW : 2 ≤ W) (t : Nat) (ht : t < 2 ^ W) :
    ∀ (as cs : List Nat) (c0 c1 : Nat),
      (∀ d ∈ as, d < 2 ^ W) → (∀ d ∈ cs, d < 2 ^ W) →
      cs.length = as.length + 1 → c0 < 2 ^ W → c1 ≤ 1 →
      (sqraRest W t as cs c0 c1).1.length = cs.length ∧
      listVal W (sqraRest W t as cs c0 c1).1 +
        (sqraRest W t as cs c0 c1).2 * (2 ^ W) ^ cs.length =
        c0 + c1 * 2 ^ W + listVal W cs + 2 * t * listVal W as
  | as, [], c0, c1 => by
    intro _ _ hlen _ _
    simp at hlen
  | [], clast :: rest2, c0, c1 => by
    intro _ hcs hlen hc0 hc1
    have hrest2 : rest2 = [] := by simpa using hlen
    subst hrest2
    have hB4 : 4 ≤ 2 ^ W := by
      calc 4 = 2 ^ 2 := by norm_num
      _ ≤ 2 ^ W := Nat.pow_le_pow_right (by omega) hW
    have hclast : clast < 2 ^ W := hcs clast (by simp)
    refine ⟨rfl, ?_⟩
    show listVal W ((clast + c0) % 2 ^ W :: ([] : List Nat)) +
      (c1 + (if (clast + c0) % 2 ^ W < c0 then 1 else 0)) % 2 ^ W *
        (2 ^ W) ^ (1 : Nat) = c0 + c1 * 2 ^ W + listVal W (clast :: []) +
        2 * t * listVal W []
    have e1 : (clast + c0) % 2 ^ W +
        (if (clast + c0) % 2 ^ W < c0 then 1 else 0) * 2 ^ W = clast + c0 :=
      wrap_eq (2 ^ W) clast c0 hclast hc0
    have hbit : (if (clast + c0) % 2 ^ W < c0 then 1 else 0) ≤ 1 := by
      split <;> omega
    have e2 : (c1 + (if (clast + c0) % 2 ^ W < c0 then 1 else 0)) % 2 ^ W =
        c1 + (if (clast + c0) % 2 ^ W < c0 then 1 else 0) :=
      Nat.mod_eq_of_lt (by omega)
    rw [e2]
    simp only [listVal, pow_one]
    zify at e1 ⊢
    linear_combination e1
  | ai :: as, ci :: cs, c0, c1 => by
    intro has hcs hlen hc0 hc1
    have hstep := sqraStepFn_spec W hW t ai ci c0 c1 ht
      (has ai (by simp)) (hcs ci (by simp)) hc0 hc1
    have ih := sqraRest_spec W hW t ht as cs
      (sqraStepFn W t ai ci c0 c1).2.1 (sqraStepFn W t ai ci c0 c1).2.2
      (fun d hd => has d (by simp [hd]))
      (fun d hd => hcs d (by simp [hd]))
      (by simpa using hlen) hstep.2.1 hstep.2.2
    constructor
    · show ((sqraStepFn W t ai ci c0 c1).1 ::
        (sqraRest W t as cs (sqraStepFn W t ai ci c0 c1).2.1
          (sqraStepFn W t ai ci c0 c1).2.2).1).length = (ci :: cs).length
      simp [ih.1]
    · show (sqraStepFn W t ai ci c0 c1).1 + 2 ^ W * listVal W
          (sqraRest W t as cs (sqraStepFn W t ai ci c0 c1).2.1
            (sqraStepFn W t ai ci c0 c1).2.2).1 +
        (sqraRest W t as cs (sqraStepFn W t ai ci c0 c1).2.1
            (sqraStepFn W t ai ci c0 c1).2.2).2 * (2 ^ W) ^ (cs.length + 1) =
        c0 + c1 * 2 ^ W + (ci + 2 ^ W * listVal W cs) +
          2 * t * (ai + 2 ^ W * listVal W as)
      have ihval := ih.2
      have hstepval := hstep.1
      zify at hstepval ihval ⊢
      linear_combination hstepval + ((2 : Int) ^ W) * ihval

theorem bn_sqra_low_cons (W t ci : Nat) (as cs : List Nat) :
    bn_sqra_low W (ci :: cs) (t :: as) =
      ((t * t % 2 ^ W + ci) % 2 ^ W ::
        (sqraRest W t as cs
          ((t * t / 2 ^ W + (if (t * t % 2 ^ W + ci) % 2 ^ W < t * t % 2 ^ W
            then 1 else 0)) % 2 ^ W) 0).1,
       (sqraRest W t as cs
          ((t * t / 2 ^ W + (if (t * t % 2 ^ W + ci) % 2 ^ W < t * t % 2 ^ W
            then 1 else 0)) % 2 ^ W) 0).2) := rfl

/-- Counterexample to claim C4 as stated: at `W = 2`, accumulator
`c = [0,0,0]` and operand `a = [0,1]` (value 4), `bn_sqra_low` leaves
`c` and the returned carry at zero — it accumulates only the column
contribution of digit `a[0] = 0` — while the claim's identity would
require the full square `16` to have been added. -/
theorem claim_C4_counterexample :
    ¬ (listVal 2 (bn_sqra_low 2 [0, 0, 0] [0, 1]).1 +
        (bn_sqra_low 2 [0, 0, 0] [0, 1]).2 * (2 ^ 2) ^ (3 : Nat) =
       listVal 2 [0, 0, 0] + listVal 2 [0, 1] * listVal 2 [0, 1]) := by
  decide

/-- Claim C4, amended: `bn_sqra_low c a size` adds into the accumulator
the column contribution of digit `a[0]` — its square `t * t` plus twice
its product with the remaining digits, `2 * t * (B * value as)` (that is,
`2 * t * value a - t ^ 2`, not the full square of `a`) — and the updated
`c[0..size]` plus the returned carry shifted to position `size + 1`
accounts for that sum exactly; the delayed carry word of each loop
iteration is committed exactly one iteration later with no gaps, which
is what the word-level iteration lemma `sqraStepAux` verifies. -/
theorem claim_C4 (W t ci : Nat) (as cs : List Nat) (hW : 2 ≤ W)
    (ht : t < 2 ^ W) (has : ∀ d ∈ as, d < 2 ^ W) (hci : ci < 2 ^ W)
    (hcs : ∀ d ∈ cs, d < 2 ^ W) (hlen : cs.length = as.length + 1) :
    (bn_sqra_low W (ci :: cs) (t :: as)).1.length = (ci :: cs).length ∧
    listVal W (bn_sqra_low W (ci :: cs) (t :: as)).1 +
      (bn_sqra_low W (ci :: cs) (t :: as)).2 * (2 ^ W) ^ (ci :: cs).length =
      listVal W (ci :: cs) + (t * t + 2 * t * (2 ^ W * listVal W as)) := by
  have hB4 : 4 ≤ 2 ^ W := by
    calc 4 = 2 ^ 2 := by norm_num
    _ ≤ 2 ^ W := Nat.pow_le_pow_right (by omega) hW
  obtain ⟨hdm, hlo, hhi, _⟩ := prod_hi_lo (2 ^ W) t t (by omega) ht ht
  rw [bn_sqra_low_cons]
  set d0 := (t * t % 2 ^ W + ci) % 2 ^ W with hd0
  set bit := (if d0 < t * t % 2 ^ W then 1 else 0) with hbit
  set cc0 := (t * t / 2 ^ W + bit) % 2 ^ W with hcc0
  have hbit1 : bit ≤ 1 := by rw [hbit]; split <;> omega
  have e_cc0 : cc0 = t * t / 2 ^ W + bit := by
    rw [hcc0]
    exact Nat.mod_eq_of_lt (by omega)
  have hcc0B : cc0 < 2 ^ W := by rw [hcc0]; exact Nat.mod_lt _ (by omega)
  have e_d0 : d0 + bit * 2 ^ W = ci + t * t % 2 ^ W := by
    rw [hbit, hd0]
    rw [show t * t % 2 ^ W + ci = ci + t * t % 2 ^ W from by omega]
    exact wrap_eq (2 ^ W) ci (t * t % 2 ^ W) hci hlo
  obtain ⟨hrlen, hrval⟩ := sqraRest_spec W hW t ht as cs cc0 0 has hcs hlen
    hcc0B (by omega)
  constructor
  · show (d0 :: (sqraRest W t as cs cc0 0).1).length = (ci :: cs).length
    simp [hrlen]
  · show d0 + 2 ^ W * listVal W (sqraRest W t as cs cc0 0).1 +
      (sqraRest W t as cs cc0 0).2 * (2 ^ W) ^ (cs.length + 1) =
      (ci + 2 ^ W * listVal W cs) +
        (t * t + 2 * t * (2 ^ W * listVal W as))
    zify at hrval e_d0 e_cc0 hdm ⊢
    linear_combination e_d0 + ((2 : Int) ^ W) * hrval +
      ((2 : Int) ^ W) * e_cc0 + hdm

/-- Witness for C4 at `W = 2`, `a = [3, 3]`, `c = [3, 3, 3]`. -/
theorem claim_C4_witness :
    (2 ≤ 2) ∧
    ((bn_sqra_low 2 (3 :: [3, 3]) (3 :: [3])).1.length =
      (3 :: [3, 3] : List Nat).length ∧
     listVal 2 (bn_sqra_low 2 (3 :: [3, 3]) (3 :: [3])).1 +
       (bn_sqra_low 2 (3 :: [3, 3]) (3 :: [3])).2 *
         (2 ^ 2) ^ (3 :: [3, 3] : List Nat).length =
       listVal 2 (3 :: [3, 3]) + (3 * 3 + 2 * 3 * (2 ^ 2 * listVal 2 [3]))) :=
  ⟨by decide, claim_C4 2 3 3 [3] [3, 3] (by decide) (by decide)
    (by decide) (by decide) (by decide) (by decide)⟩
